import Mathlib

/-!
Verification of the poryscript emitter (package emitter, file emitter.go).

The development shallowly embeds the emitter's data model and algorithms:

* the AST data contract (script/raw top-level statements, commands,
  if/elif/else, while, do-while, break, continue, boolean expressions) as
  Lean inductives, following the input contract the emitter consumes;
* the chunk data structures, the boolean-expression linearizer
  `splitBooleanExpressionChunks`, the worklist chunk builder of
  `emitScriptStatement` (here `processChunks`), the chunk-order optimizer
  `optimizeChunkOrder`, the renderer `renderChunks`, and the top-level
  `Emit`.

Go's `panic` is modelled as a distinguished error outcome (`Except.error`
for the linearizer, a `panicked` constructor for the builder), and the
unbounded worklist/optimizer loops are modelled with explicit fuel so that
every definition is executable; fuel exhaustion is a separate outcome so
that theorems about completed runs say exactly what the Go loops compute.

Helper methods living in the repository's chunk.go (not available here:
`splitChunkForBranch`, `getTailChunkID`, the render methods) are modelled
from the specification and marked as such in their doc comments.
-/

namespace Poryscript

/-- Atomic comparison expression, consumed opaquely by the emitter; the
data contract only requires that it can be rendered as a conditional-jump
command by the collaborator. -/
structure OperatorExpression where
  text : String
deriving DecidableEq, Repr

/-- Token type of a binary boolean operator. The emitter compares it
against the AND and OR tokens; any other operator token reaches the
linearizer only if earlier validation stages failed. -/
inductive TokenType where
  | and
  | or
  | other (literal : String)
deriving DecidableEq, Repr

/-- Boolean expression tree: atomic comparison leaves and binary nodes,
per the input data contract. -/
inductive BoolExpr where
  | op (expression : OperatorExpression)
  | bin (operator : TokenType) (left right : BoolExpr)
deriving DecidableEq, Repr

/-- Structured statements of a script body, per the input data contract.
Loop statements carry a stable loop identifier standing for Go's
pointer-identity keying of loop statement nodes; break and continue carry
the identifier of their enclosing loop statement. -/
inductive Stmt where
  | command (name : String) (args : String)
  | ifS (consExpr : BoolExpr) (consBody : List Stmt)
      (elifs : List (BoolExpr × List Stmt)) (elseB : Option (List Stmt))
  | whileS (loopID : Nat) (condExpr : BoolExpr) (body : List Stmt)
  | doWhileS (loopID : Nat) (condExpr : BoolExpr) (body : List Stmt)
  | breakS (loopID : Nat)
  | continueS (loopID : Nat)

/-- Destination of a conditional branch: chunk id plus the atomic
comparison that guards the jump (Go struct conditionDestination). -/
structure ConditionDestination where
  id : Int
  operatorExpression : OperatorExpression

/-- Branch behavior variants of a chunk (Go types jump,
leafExpressionBranch, breakContext). -/
inductive BranchBehavior where
  | jump (destChunkID : Int)
  | leafExpressionBranch (truthyDest : ConditionDestination) (falseyReturnID : Int)
  | breakContext (destChunkID : Int)

/-- Basic block produced by the emitter (Go struct chunk). A field left
out of a Go composite literal gets the zero value; constructions below
spell the zero values out explicitly. -/
structure Chunk where
  id : Int
  returnID : Int
  statements : List Stmt
  branchBehavior : Option BranchBehavior

/-- Message of the Go runtime panic raised when a nil chunk pointer
returned for a malformed operand is dereferenced. -/
def nilLinkPanicMsg : String :=
  "runtime error: invalid memory address or nil pointer dereference"

/-- Linearizer for short-circuit boolean expressions (Go function
splitBooleanExpressionChunks). Arguments follow the Go parameter order:
expression, chunk counter, success destination, failure destination,
remaining chunks, first id. The Go version threads the counter through a
pointer and patches the intermediate chunk's branch after the recursive
calls; here the counter is threaded through the result and the
intermediate chunk is appended with its final branch, at the same list
position. A nil-pointer dereference (malformed operand under AND/OR) is
an error outcome. -/
def splitBooleanExpressionChunks :
    BoolExpr → Int → Int → Int → List Chunk → Int →
    Except String (List Chunk × Option Chunk × Int × Int)
  | .op opEx, chunkCounter, successChunkID, failureChunkID, remainingChunks, firstID =>
    let newCounter := chunkCounter + 1
    let newChunk : Chunk :=
      { id := newCounter, returnID := 0, statements := [],
        branchBehavior := some (.leafExpressionBranch
          { id := successChunkID, operatorExpression := opEx } failureChunkID) }
    let firstID := if firstID = -1 then newChunk.id else firstID
    .ok (remainingChunks ++ [newChunk], some newChunk, firstID, newCounter)
  | .bin .and left right, chunkCounter, successChunkID, failureChunkID, remainingChunks, firstID =>
    let successID := chunkCounter + 1
    match splitBooleanExpressionChunks left successID successID failureChunkID
        remainingChunks firstID with
    | .error e => .error e
    | .ok (rem1, leftLink, fid1, c1) =>
      match splitBooleanExpressionChunks right c1 successChunkID failureChunkID rem1 fid1 with
      | .error e => .error e
      | .ok (rem2, linkChunk, fid2, c2) =>
        match linkChunk with
        | none => .error nilLinkPanicMsg
        | some lk =>
          let successChunk : Chunk :=
            { id := successID, returnID := 0, statements := [],
              branchBehavior := some (.jump lk.id) }
          .ok (rem2 ++ [successChunk], leftLink, fid2, c2)
  | .bin .or left right, chunkCounter, successChunkID, failureChunkID, remainingChunks, firstID =>
    let failID := chunkCounter + 1
    match splitBooleanExpressionChunks left failID successChunkID failID
        remainingChunks firstID with
    | .error e => .error e
    | .ok (rem1, leftLink, fid1, c1) =>
      match splitBooleanExpressionChunks right c1 successChunkID failureChunkID rem1 fid1 with
      | .error e => .error e
      | .ok (rem2, linkChunk, fid2, c2) =>
        match linkChunk with
        | none => .error nilLinkPanicMsg
        | some lk =>
          let failChunk : Chunk :=
            { id := failID, returnID := 0, statements := [],
              branchBehavior := some (.jump lk.id) }
          .ok (rem2 ++ [failChunk], leftLink, fid2, c2)
  | .bin (.other _) _ _, chunkCounter, _, _, remainingChunks, firstID =>
    .ok (remainingChunks, none, firstID, chunkCounter)

/-- Follows the claim's words for the binary cases (refinement variant,
for comparison with the source definition): for AND, the right operand is
linearized first with the original success and failure destinations; then
a fresh intermediate success chunk that unconditionally jumps to the right
operand's entry chunk is allocated, and the left operand is linearized
with that intermediate chunk as its success destination and the original
failure as its failure destination; the id returned as the whole
expression's entry is the left operand's entry. OR is symmetric, and the
leaf and malformed cases follow the source. -/
def splitBooleanExpressionChunksSpecOrder :
    BoolExpr → Int → Int → Int → List Chunk → Int →
    Except String (List Chunk × Option Chunk × Int × Int)
  | .op opEx, chunkCounter, successChunkID, failureChunkID, remainingChunks, firstID =>
    let newCounter := chunkCounter + 1
    let newChunk : Chunk :=
      { id := newCounter, returnID := 0, statements := [],
        branchBehavior := some (.leafExpressionBranch
          { id := successChunkID, operatorExpression := opEx } failureChunkID) }
    let firstID := if firstID = -1 then newChunk.id else firstID
    .ok (remainingChunks ++ [newChunk], some newChunk, firstID, newCounter)
  | .bin .and left right, chunkCounter, successChunkID, failureChunkID, remainingChunks, firstID =>
    match splitBooleanExpressionChunksSpecOrder right chunkCounter successChunkID
        failureChunkID remainingChunks (-1) with
    | .error e => .error e
    | .ok (rem1, _, rightEntry, c1) =>
      let interID := c1 + 1
      let inter : Chunk :=
        { id := interID, returnID := 0, statements := [],
          branchBehavior := some (.jump rightEntry) }
      match splitBooleanExpressionChunksSpecOrder left interID interID failureChunkID
          (rem1 ++ [inter]) (-1) with
      | .error e => .error e
      | .ok (rem2, leftLink, leftEntry, c2) =>
        .ok (rem2, leftLink, if firstID = -1 then leftEntry else firstID, c2)
  | .bin .or left right, chunkCounter, successChunkID, failureChunkID, remainingChunks, firstID =>
    match splitBooleanExpressionChunksSpecOrder right chunkCounter successChunkID
        failureChunkID remainingChunks (-1) with
    | .error e => .error e
    | .ok (rem1, _, rightEntry, c1) =>
      let interID := c1 + 1
      let inter : Chunk :=
        { id := interID, returnID := 0, statements := [],
          branchBehavior := some (.jump rightEntry) }
      match splitBooleanExpressionChunksSpecOrder left interID successChunkID interID
          (rem1 ++ [inter]) (-1) with
      | .error e => .error e
      | .ok (rem2, leftLink, leftEntry, c2) =>
        .ok (rem2, leftLink, if firstID = -1 then leftEntry else firstID, c2)
  | .bin (.other _) _ _, chunkCounter, _, _, remainingChunks, firstID =>
    .ok (remainingChunks, none, firstID, chunkCounter)

/-- C4 counterexample: on the AND of two atomic comparisons, the source
linearizer allocates the left operand's chunk (id 2, guarded by the left
comparison) before the right operand's chunk (id 3) — the counter is only
ever incremented, so the left operand is linearized first — whereas the
claim's right-operand-first order would allocate the right operand's chunk
first (ids 1, 2, 3 for right, intermediate, left). The produced chunk-id
sequences differ. -/
theorem c4_and_order_counterexample :
    (splitBooleanExpressionChunks
        (.bin .and (.op { text := "a" }) (.op { text := "b" })) 0 7 8 [] (-1)).map
        (fun x => x.1.map Chunk.id) = .ok [2, 3, 1] ∧
    (splitBooleanExpressionChunksSpecOrder
        (.bin .and (.op { text := "a" }) (.op { text := "b" })) 0 7 8 [] (-1)).map
        (fun x => x.1.map Chunk.id) = .ok [1, 2, 3] ∧
    ([2, 3, 1] : List Int) ≠ [1, 2, 3] :=
  ⟨rfl, rfl, by decide⟩

/-- C4 (amended): for every AND expression, the source linearizer first
allocates the fresh intermediate success chunk (id counter+1), then
linearizes the LEFT operand with that intermediate chunk as its success
destination and the original failure as its failure destination, then
linearizes the right operand with the original (success, failure); the
intermediate chunk is appended last with an unconditional jump to the
right operand's link chunk, and the returned entry id is the left
operand's entry (the first-id threading of the left call). -/
theorem c4_and_linearizes_left_first (left right : BoolExpr) (c succ fail : Int)
    (rem : List Chunk) (fid : Int) :
    splitBooleanExpressionChunks (.bin .and left right) c succ fail rem fid =
      match splitBooleanExpressionChunks left (c + 1) (c + 1) fail rem fid with
      | .error e => .error e
      | .ok (rem1, leftLink, fid1, c1) =>
        match splitBooleanExpressionChunks right c1 succ fail rem1 fid1 with
        | .error e => .error e
        | .ok (rem2, linkChunk, fid2, c2) =>
          match linkChunk with
          | none => .error nilLinkPanicMsg
          | some lk =>
            let successChunk : Chunk :=
              { id := c + 1, returnID := 0, statements := [],
                branchBehavior := some (.jump lk.id) }
            .ok (rem2 ++ [successChunk], leftLink, fid2, c2) :=
  rfl

/-- C8 counterexample: a binary expression whose operator is neither AND
nor OR reaches the linearizer and is returned as a successful result with
no chunks created, a nil link chunk and the entry id unchanged — no
defensive error is reported. -/
theorem c8_malformed_silent_counterexample :
    splitBooleanExpressionChunks
        (.bin (.other "xor") (.op { text := "a" }) (.op { text := "b" })) 0 1 2 [] (-1) =
      .ok ([], none, -1, 0) :=
  rfl

/-- C8 (amended): for every binary expression whose operator is neither
AND nor OR, the linearizer silently succeeds with the remaining-chunks
list unchanged, a nil link chunk and the entry id unchanged, reporting no
error. When such an expression is the RIGHT operand of an AND or OR
node, the nil link chunk it returns is dereferenced and the process
crashes with a nil-pointer panic; when it is the LEFT operand, its nil
link is only passed along, so linearization completes without any error,
silently dropping the left condition (only the right operand's test and
the orphaned intermediate chunk are emitted, and the returned link is
nil). -/
theorem c8_malformed_silent_or_crash (s : String) (left right : BoolExpr)
    (c succ fail : Int) (rem : List Chunk) (fid : Int) :
    splitBooleanExpressionChunks (.bin (.other s) left right) c succ fail rem fid =
      .ok (rem, none, fid, c) ∧
    splitBooleanExpressionChunks
        (.bin .and (.op ⟨s⟩) (.bin (.other s) left right)) c succ fail rem fid =
      .error nilLinkPanicMsg ∧
    splitBooleanExpressionChunks
        (.bin .or (.op ⟨s⟩) (.bin (.other s) left right)) c succ fail rem fid =
      .error nilLinkPanicMsg ∧
    splitBooleanExpressionChunks
        (.bin .and (.bin (.other s) left right) (.op ⟨s⟩)) c succ fail rem fid =
      .ok ((rem ++
          [⟨c + 1 + 1, 0, [], some (.leafExpressionBranch ⟨succ, ⟨s⟩⟩ fail)⟩]) ++
          [⟨c + 1, 0, [], some (.jump (c + 1 + 1))⟩],
        none, if fid = -1 then c + 1 + 1 else fid, c + 1 + 1) ∧
    splitBooleanExpressionChunks
        (.bin .or (.bin (.other s) left right) (.op ⟨s⟩)) c succ fail rem fid =
      .ok ((rem ++
          [⟨c + 1 + 1, 0, [], some (.leafExpressionBranch ⟨succ, ⟨s⟩⟩ fail)⟩]) ++
          [⟨c + 1, 0, [], some (.jump (c + 1 + 1))⟩],
        none, if fid = -1 then c + 1 + 1 else fid, c + 1 + 1) :=
  ⟨rfl, rfl, rfl, rfl, rfl⟩

/-- Modelled from the spec: chunk method splitChunkForBranch (file
chunk.go, which is not available). Splitting the current chunk at the
branching statement at index i preserves the chunk's tail as a new
pending continuation chunk holding the statements after the construct,
reachable via the returned return id; when the construct is the last
statement there is no tail, and the enclosing continuation (the chunk's
own return id) is reused. Returns the updated remaining chunks, the
continuation id, and the updated counter. -/
def splitChunkForBranch (c : Chunk) (i : Nat) (chunkCounter : Int)
    (remainingChunks : List Chunk) : List Chunk × Int × Int :=
  if i = c.statements.length - 1 then
    (remainingChunks, c.returnID, chunkCounter)
  else
    let newCounter := chunkCounter + 1
    let newChunk : Chunk :=
      { id := newCounter, returnID := c.returnID,
        statements := c.statements.drop (i + 1), branchBehavior := none }
    (remainingChunks ++ [newChunk], newCounter, newCounter)

/-- Allocation loop over the elif clauses of an if statement (the first
for loop of Go function createIfStatementChunks): one pending chunk per
elif body, all sharing the continuation return id. Returns the updated
remaining chunks, the (chunk id, condition) pairs in clause order, and
the updated counter. -/
def allocElifChunks (elifs : List (BoolExpr × List Stmt)) (returnID : Int)
    (remainingChunks : List Chunk) (pairs : List (Int × BoolExpr))
    (chunkCounter : Int) : List Chunk × List (Int × BoolExpr) × Int :=
  match elifs with
  | [] => (remainingChunks, pairs, chunkCounter)
  | (ex, body) :: rest =>
    let newCounter := chunkCounter + 1
    let elifChunk : Chunk :=
      { id := newCounter, returnID := returnID, statements := body,
        branchBehavior := none }
    allocElifChunks rest returnID (remainingChunks ++ [elifChunk])
      (pairs ++ [(newCounter, ex)]) newCounter

/-- Reverse-order linearization of the elif conditions (the second for
loop of Go function createIfStatementChunks): the input list is the
(chunk id, condition) pairs in reverse clause order, and the failure
destination of each clause is the entry of the following clause, seeded
with the else chunk or the continuation. Returns the remaining chunks,
the entry id of the first elif clause, and the counter. -/
def linearizeElifsRev : List (Int × BoolExpr) → Int → Int → List Chunk →
    Except String (List Chunk × Int × Int)
  | [], chunkCounter, prevEntry, rem => .ok (rem, prevEntry, chunkCounter)
  | (cid, ex) :: rest, chunkCounter, failID, rem =>
    match splitBooleanExpressionChunks ex chunkCounter cid failID rem (-1) with
    | .error e => .error e
    | .ok (rem1, _, entry, c1) => linearizeElifsRev rest c1 entry rem1

/-- Chunk construction for an if statement (Go function
createIfStatementChunks). Returns the updated remaining chunks, the
destination of the head chunk's jump (the entry of the linearized main
condition), and the updated counter. -/
def createIfStatementChunks (consExpr : BoolExpr) (consBody : List Stmt)
    (elifs : List (BoolExpr × List Stmt)) (elseB : Option (List Stmt))
    (i : Nat) (curChunk : Chunk) (remainingChunks : List Chunk)
    (chunkCounter : Int) : Except String (List Chunk × Int × Int) :=
  let (rem, returnID, c0) := splitChunkForBranch curChunk i chunkCounter remainingChunks
  let consequenceID := c0 + 1
  let consequenceChunk : Chunk :=
    { id := consequenceID, returnID := returnID, statements := consBody,
      branchBehavior := none }
  let rem := rem ++ [consequenceChunk]
  let (rem, elifPairs, c1) := allocElifChunks elifs returnID rem [] consequenceID
  let (rem, elseID, c2) :=
    match elseB with
    | some body =>
      let eid := c1 + 1
      let elseChunk : Chunk :=
        { id := eid, returnID := returnID, statements := body,
          branchBehavior := none }
      (rem ++ [elseChunk], some eid, eid)
    | none => (rem, (none : Option Int), c1)
  let baseFail := match elseID with | some eid => eid | none => returnID
  match elifPairs with
  | [] =>
    match splitBooleanExpressionChunks consExpr c2 consequenceID baseFail rem (-1) with
    | .error e => .error e
    | .ok (rem3, _, entry, c3) => .ok (rem3, entry, c3)
  | _ :: _ =>
    match linearizeElifsRev elifPairs.reverse c2 baseFail rem with
    | .error e => .error e
    | .ok (rem3, prevEntry, c3) =>
      match splitBooleanExpressionChunks consExpr c3 consequenceID prevEntry rem3 (-1) with
      | .error e => .error e
      | .ok (rem4, _, entry, c4) => .ok (rem4, entry, c4)

/-- Chunk construction for a while statement (Go function
createWhileStatementChunks). Returns the updated remaining chunks, the
destination of the head chunk's jump (the header chunk), the loop's
return (exit) id, and the updated counter. -/
def createWhileStatementChunks (condExpr : BoolExpr) (body : List Stmt)
    (i : Nat) (curChunk : Chunk) (remainingChunks : List Chunk)
    (chunkCounter : Int) : Except String (List Chunk × Int × Int × Int) :=
  let (rem, returnID, c0) := splitChunkForBranch curChunk i chunkCounter remainingChunks
  let headerID := c0 + 1
  let consequenceID := headerID + 1
  match splitBooleanExpressionChunks condExpr consequenceID consequenceID returnID rem (-1) with
  | .error e => .error e
  | .ok (rem1, _, entryChunkID, c1) =>
    let consequenceChunk : Chunk :=
      { id := consequenceID, returnID := headerID, statements := body,
        branchBehavior := none }
    let headerChunk : Chunk :=
      { id := headerID, returnID := returnID, statements := [],
        branchBehavior := some (.jump entryChunkID) }
    .ok (rem1 ++ [consequenceChunk, headerChunk], headerID, returnID, c1)

/-- Chunk construction for a do-while statement (Go function
createDoWhileStatementChunks). Identical to the while construction except
that the returned jump destination is the consequence (body) chunk rather
than the header chunk. -/
def createDoWhileStatementChunks (condExpr : BoolExpr) (body : List Stmt)
    (i : Nat) (curChunk : Chunk) (remainingChunks : List Chunk)
    (chunkCounter : Int) : Except String (List Chunk × Int × Int × Int) :=
  let (rem, returnID, c0) := splitChunkForBranch curChunk i chunkCounter remainingChunks
  let headerID := c0 + 1
  let consequenceID := headerID + 1
  match splitBooleanExpressionChunks condExpr consequenceID consequenceID returnID rem (-1) with
  | .error e => .error e
  | .ok (rem1, _, entryChunkID, c1) =>
    let consequenceChunk : Chunk :=
      { id := consequenceID, returnID := headerID, statements := body,
        branchBehavior := none }
    let headerChunk : Chunk :=
      { id := headerID, returnID := returnID, statements := [],
        branchBehavior := some (.jump entryChunkID) }
    .ok (rem1 ++ [consequenceChunk, headerChunk], consequenceID, returnID, c1)

/-- State of the worklist loop of Go method emitScriptStatement: the
chunk-id counter, the finalized chunks in insertion order, the pending
chunks, and the two loop-binding maps (association lists keyed by the
loop statement's identity, most recent binding first). -/
structure BuildState where
  counter : Int
  finals : List Chunk
  remaining : List Chunk
  loopReturn : List (Nat × Int)
  loopOrigin : List (Nat × Int)

/-- Lookup in a loop-binding association list (Go map indexing). -/
def lookupA (l : List (Nat × Int)) (k : Nat) : Option Int :=
  (l.find? (fun p => p.1 == k)).map (fun p => p.2)

/-- Result of the leading-command scan at the top of the worklist loop
body: either a control-terminal command (end or return) was found at
index i within the leading run of plain commands, or the scan stopped at
index i (the first non-command statement, or the end of the list). -/
inductive ScanResult where
  | terminal (i : Nat)
  | stopped (i : Nat)
deriving DecidableEq, Repr

/-- Leading-command scan of Go method emitScriptStatement: skip over
plain command statements, stopping early at a command named end or
return. -/
def scanLeadingCommands : List Stmt → Nat → ScanResult
  | [], i => .stopped i
  | .command nm _ :: rest, i =>
    if nm = "end" ∨ nm = "return" then .terminal i
    else scanLeadingCommands rest (i + 1)
  | _ :: _, i => .stopped i

/-- Message of the Go panic raised for a break statement whose loop
binding is unknown. -/
def breakPanicMsg : String :=
  "Could not emit \x27break\x27 statement because its return point is unknown."

/-- Message of the Go panic raised for a continue statement whose loop
binding is unknown. -/
def continuePanicMsg : String :=
  "Could not emit \x27continue\x27 statement because its return point is unknown."

/-- Outcome of the worklist loop: normal completion with the final state,
a Go panic (with its message), or exhaustion of the explicit fuel bound
(the Go loop is unbounded). -/
inductive ProcResult where
  | done (st : BuildState)
  | panicked (msg : String)
  | outOfFuel

/-- Completed chunk built by the worklist loop from the current chunk
truncated at statement index i, with the given return id and branch
behavior (the completeChunk composite literals of Go method
emitScriptStatement). -/
def completeChunk (cur : Chunk) (retID : Int) (i : Nat)
    (bb : Option BranchBehavior) : Chunk :=
  { id := cur.id, returnID := retID, statements := cur.statements.take i,
    branchBehavior := bb }

/-- Worklist loop of Go method emitScriptStatement: repeatedly pop a
pending chunk, skip its leading plain commands, and either finalize it
(end of statements, or a control-terminal command) or split it at the
first branching statement, pushing the newly created pending chunks. -/
def processChunks : Nat → BuildState → ProcResult
  | fuel, st =>
    match st.remaining with
    | [] => .done st
    | curChunk :: rest =>
      match fuel with
      | 0 => .outOfFuel
      | fuel + 1 =>
        match scanLeadingCommands curChunk.statements 0 with
        | .terminal i =>
          processChunks fuel
            { st with
              remaining := rest,
              finals := st.finals ++ [completeChunk curChunk (-1) i none] }
        | .stopped i =>
          if i = curChunk.statements.length then
            processChunks fuel
              { st with
                remaining := rest,
                finals := st.finals ++ [curChunk] }
          else
            match curChunk.statements.get? i with
            | some (.ifS consExpr consBody elifs elseB) =>
              match createIfStatementChunks consExpr consBody elifs elseB i curChunk
                  rest st.counter with
              | .error e => .panicked e
              | .ok (newRem, entry, c) =>
                processChunks fuel
                  { counter := c,
                    remaining := newRem,
                    finals := st.finals ++
                      [completeChunk curChunk curChunk.returnID i (some (.jump entry))],
                    loopReturn := st.loopReturn,
                    loopOrigin := st.loopOrigin }
            | some (.whileS lid condExpr body) =>
              match createWhileStatementChunks condExpr body i curChunk rest st.counter with
              | .error e => .panicked e
              | .ok (newRem, dest, returnID, c) =>
                processChunks fuel
                  { counter := c,
                    remaining := newRem,
                    finals := st.finals ++
                      [completeChunk curChunk curChunk.returnID i (some (.jump dest))],
                    loopReturn := (lid, returnID) :: st.loopReturn,
                    loopOrigin := (lid, dest) :: st.loopOrigin }
            | some (.doWhileS lid condExpr body) =>
              match createDoWhileStatementChunks condExpr body i curChunk rest st.counter with
              | .error e => .panicked e
              | .ok (newRem, dest, returnID, c) =>
                processChunks fuel
                  { counter := c,
                    remaining := newRem,
                    finals := st.finals ++
                      [completeChunk curChunk curChunk.returnID i (some (.jump dest))],
                    loopReturn := (lid, returnID) :: st.loopReturn,
                    loopOrigin := (lid, dest) :: st.loopOrigin }
            | some (.breakS lid) =>
              match lookupA st.loopReturn lid with
              | none => .panicked breakPanicMsg
              | some destChunkID =>
                processChunks fuel
                  { st with
                    remaining := rest,
                    finals := st.finals ++
                      [completeChunk curChunk curChunk.returnID i
                        (some (.breakContext destChunkID))] }
            | some (.continueS lid) =>
              match lookupA st.loopOrigin lid with
              | none => .panicked continuePanicMsg
              | some destChunkID =>
                processChunks fuel
                  { st with
                    remaining := rest,
                    finals := st.finals ++
                      [completeChunk curChunk curChunk.returnID i
                        (some (.breakContext destChunkID))] }
            | some (.command _ _) | none =>
              processChunks fuel
                { st with
                  remaining := rest,
                  finals := st.finals ++ [completeChunk curChunk curChunk.returnID i none] }

/-- Initial worklist state for one script statement's compilation: a
fresh counter and one pending chunk (id 0, return id -1) holding the full
body. -/
def initBuildState (body : List Stmt) : BuildState :=
  { counter := 0, finals := [],
    remaining := [{ id := 0, returnID := -1, statements := body,
                    branchBehavior := none }],
    loopReturn := [], loopOrigin := [] }

/-- Finalized chunks of a completed worklist run. -/
def finalsOf : ProcResult → List Chunk
  | .done st => st.finals
  | _ => []

/-- Recorded continue targets (loop-origin bindings) of a completed
worklist run. -/
def loopOriginOf : ProcResult → List (Nat × Int)
  | .done st => st.loopOrigin
  | _ => []

/-- Recorded break targets (loop-return bindings) of a completed worklist
run. -/
def loopReturnOf : ProcResult → List (Nat × Int)
  | .done st => st.loopReturn
  | _ => []

/-- C1: evaluation of the builder at a do-while loop containing a
continue statement (and, for contrast, at the analogous while loop). For
the do-while, the recorded loop-origin binding — the destination every
continue referencing the loop resolves to — is chunk 2, the loop's body
(consequence) chunk, whose finalized form shows the continue jumping back
to chunk 2 itself; the chunk that re-evaluates the condition is entered
through the header chunk 1 (which jumps to the condition chunk 3). For
the while loop the binding is chunk 1, the header. The do-while binding
therefore contradicts the claim. -/
theorem c1_dowhile_continue_resolves_to_body_chunk :
    loopOriginOf (processChunks 10 (initBuildState
        [Stmt.doWhileS 0 (BoolExpr.op { text := "cond" }) [Stmt.continueS 0]])) =
      [(0, 2)] ∧
    finalsOf (processChunks 10 (initBuildState
        [Stmt.doWhileS 0 (BoolExpr.op { text := "cond" }) [Stmt.continueS 0]])) =
      [{ id := 0, returnID := -1, statements := [],
         branchBehavior := some (.jump 2) },
       { id := 3, returnID := 0, statements := [],
         branchBehavior := some (.leafExpressionBranch
           { id := 2, operatorExpression := { text := "cond" } } (-1)) },
       { id := 2, returnID := 1, statements := [],
         branchBehavior := some (.breakContext 2) },
       { id := 1, returnID := -1, statements := [],
         branchBehavior := some (.jump 3) }] ∧
    loopOriginOf (processChunks 10 (initBuildState
        [Stmt.whileS 0 (BoolExpr.op { text := "cond" }) [Stmt.continueS 0]])) =
      [(0, 1)] :=
  ⟨rfl, rfl, rfl⟩

/-- C3 counterexample: compiling a script whose sole statement is a break
with no enclosing-loop binding ends in the panicked outcome (the Go code
calls panic, which crashes the process), not in an error value returned
to the caller. -/
theorem c3_unbound_break_panics_counterexample :
    processChunks 5 (initBuildState [Stmt.breakS 7]) = .panicked breakPanicMsg :=
  rfl

/-- Characterization of the leading-command scan when the leading run of
plain commands ends at a non-command statement: the scan stops at its
index. -/
theorem scanLeadingCommands_stopped (stmts : List Stmt) (i k : Nat)
    (hlead : ∀ j, j < i → ∃ nm args, stmts[j]? = some (.command nm args) ∧
      ¬(nm = "end" ∨ nm = "return"))
    (hnc : ∃ s, stmts[i]? = some s ∧ ∀ nm args, s ≠ .command nm args) :
    scanLeadingCommands stmts k = .stopped (k + i) := by
  induction stmts generalizing i k with
  | nil =>
    obtain ⟨s, hs, _⟩ := hnc
    simp at hs
  | cons s0 rest ih =>
    cases i with
    | zero =>
      obtain ⟨s, hs, hsnc⟩ := hnc
      rw [List.getElem?_cons_zero] at hs
      obtain rfl : s0 = s := by simpa using hs
      cases s0 with
      | command nm args => exact absurd rfl (hsnc nm args)
      | ifS a b c d => simp [scanLeadingCommands]
      | whileS a b c => simp [scanLeadingCommands]
      | doWhileS a b c => simp [scanLeadingCommands]
      | breakS a => simp [scanLeadingCommands]
      | continueS a => simp [scanLeadingCommands]
    | succ i =>
      obtain ⟨nm, args, h0, hnot⟩ := hlead 0 (Nat.succ_pos i)
      rw [List.getElem?_cons_zero] at h0
      obtain rfl : s0 = .command nm args := by simpa using h0
      have step : scanLeadingCommands (Stmt.command nm args :: rest) k =
          scanLeadingCommands rest (k + 1) := by
        simp [scanLeadingCommands, hnot]
      rw [step]
      have hrec := ih i (k + 1)
        (fun j hj => by simpa using hlead (j + 1) (Nat.succ_lt_succ hj))
        (by simpa using hnc)
      rw [hrec]
      congr 1
      omega

/-- C3 (amended): for every break or continue statement whose
enclosing-loop binding is absent from the recorded loop bindings —
whatever the current worklist state, the bindings already recorded, and
the plain commands preceding it in its chunk — the worklist loop panics
with a message identifying the statement kind: a process crash, not a
silent fallthrough and not an error value reported to the caller. -/
theorem c3_unbound_break_continue_panics (fuel : Nat) (st : BuildState)
    (cur : Chunk) (rest : List Chunk) (i : Nat) (lid : Nat)
    (hrem : st.remaining = cur :: rest)
    (hlead : ∀ j, j < i → ∃ nm args, cur.statements[j]? = some (.command nm args) ∧
      ¬(nm = "end" ∨ nm = "return")) :
    (cur.statements[i]? = some (.breakS lid) →
      lookupA st.loopReturn lid = none →
      processChunks (fuel + 1) st = .panicked breakPanicMsg) ∧
    (cur.statements[i]? = some (.continueS lid) →
      lookupA st.loopOrigin lid = none →
      processChunks (fuel + 1) st = .panicked continuePanicMsg) := by
  obtain ⟨cnt, fins, remn, lr, lo⟩ := st
  simp only at hrem
  subst hrem
  constructor
  · intro hget hlook
    dsimp only at hlook
    have hscan : scanLeadingCommands cur.statements 0 = .stopped i := by
      simpa using scanLeadingCommands_stopped cur.statements i 0 hlead
        ⟨_, hget, fun nm args h => Stmt.noConfusion h⟩
    have hlen : i < cur.statements.length := (List.getElem?_eq_some.mp hget).1
    have hget2 : cur.statements.get? i = some (.breakS lid) := by
      rw [List.get?_eq_getElem?]
      exact hget
    conv_lhs => rw [processChunks.eq_def]
    simp only [hscan]
    rw [if_neg (by omega)]
    simp only [hget2, hlook]
  · intro hget hlook
    dsimp only at hlook
    have hscan : scanLeadingCommands cur.statements 0 = .stopped i := by
      simpa using scanLeadingCommands_stopped cur.statements i 0 hlead
        ⟨_, hget, fun nm args h => Stmt.noConfusion h⟩
    have hlen : i < cur.statements.length := (List.getElem?_eq_some.mp hget).1
    have hget2 : cur.statements.get? i = some (.continueS lid) := by
      rw [List.get?_eq_getElem?]
      exact hget
    conv_lhs => rw [processChunks.eq_def]
    simp only [hscan]
    rw [if_neg (by omega)]
    simp only [hget2, hlook]

/-- C3 witness: the amended theorem applied to a worklist state with
finalized chunks already present, non-empty loop-binding maps that lack
the referenced loop, and a plain command preceding the break in its
chunk; the run panics with the break message. -/
theorem c3_unbound_break_continue_panics_witness :
    ((⟨6, 5, [Stmt.command "foo" "", Stmt.breakS 9], none⟩ : Chunk).statements[1]? =
        some (Stmt.breakS 9) →
      lookupA [(3, 7)] 9 = none →
      processChunks 3
        (BuildState.mk 4 [⟨0, -1, [], none⟩]
          [⟨6, 5, [Stmt.command "foo" "", Stmt.breakS 9], none⟩] [(3, 7)] [(3, 1)]) =
        .panicked breakPanicMsg) ∧
    ((⟨6, 5, [Stmt.command "foo" "", Stmt.breakS 9], none⟩ : Chunk).statements[1]? =
        some (Stmt.continueS 9) →
      lookupA [(3, 1)] 9 = none →
      processChunks 3
        (BuildState.mk 4 [⟨0, -1, [], none⟩]
          [⟨6, 5, [Stmt.command "foo" "", Stmt.breakS 9], none⟩] [(3, 7)] [(3, 1)]) =
        .panicked continuePanicMsg) :=
  c3_unbound_break_continue_panics 2
    (BuildState.mk 4 [⟨0, -1, [], none⟩]
      [⟨6, 5, [Stmt.command "foo" "", Stmt.breakS 9], none⟩] [(3, 7)] [(3, 1)])
    ⟨6, 5, [Stmt.command "foo" "", Stmt.breakS 9], none⟩ [] 1 9 rfl
    (fun j hj =>
      match j, hj with
      | 0, _ => ⟨"foo", "", rfl, by simp⟩)

/-- Characterization of the leading-command scan when the leading run of
plain commands contains a control-terminal command: the scan reports the
index of the first such command. -/
theorem scanLeadingCommands_terminal (stmts : List Stmt) (i k : Nat)
    (hlead : ∀ j, j < i → ∃ nm args, stmts[j]? = some (.command nm args) ∧
      ¬(nm = "end" ∨ nm = "return"))
    (hterm : ∃ nm args, stmts[i]? = some (.command nm args) ∧
      (nm = "end" ∨ nm = "return")) :
    scanLeadingCommands stmts k = .terminal (k + i) := by
  induction stmts generalizing i k with
  | nil =>
    obtain ⟨nm, args, h, _⟩ := hterm
    simp at h
  | cons s rest ih =>
    cases i with
    | zero =>
      obtain ⟨nm, args, h, hor⟩ := hterm
      rw [List.getElem?_cons_zero] at h
      obtain rfl : s = .command nm args := by simpa using h
      simp [scanLeadingCommands, hor]
    | succ i =>
      obtain ⟨nm, args, h0, hnot⟩ := hlead 0 (Nat.succ_pos i)
      rw [List.getElem?_cons_zero] at h0
      obtain rfl : s = .command nm args := by simpa using h0
      have step : scanLeadingCommands (Stmt.command nm args :: rest) k =
          scanLeadingCommands rest (k + 1) := by
        simp [scanLeadingCommands, hnot]
      rw [step]
      have := ih i (k + 1)
        (fun j hj => by simpa using hlead (j + 1) (Nat.succ_lt_succ hj))
        (by simpa using hterm)
      rw [this]
      congr 1
      omega

/-- C6: for every pending chunk whose leading run of plain commands
contains a command named end or return (at index i, the first such
command within that run), the worklist loop finalizes the chunk with its
statements truncated right before that command, discards every statement
after it, assigns no branch behavior, and gives the chunk return id -1,
then continues with the rest of the worklist. -/
theorem c6_terminal_command_truncates (fuel : Nat) (st : BuildState) (cur : Chunk)
    (rest : List Chunk) (i : Nat)
    (hrem : st.remaining = cur :: rest)
    (hlead : ∀ j, j < i → ∃ nm args, cur.statements[j]? = some (.command nm args) ∧
      ¬(nm = "end" ∨ nm = "return"))
    (hterm : ∃ nm args, cur.statements[i]? = some (.command nm args) ∧
      (nm = "end" ∨ nm = "return")) :
    processChunks (fuel + 1) st =
      processChunks fuel
        { st with
          remaining := rest,
          finals := st.finals ++
            [{ id := cur.id, returnID := -1,
               statements := cur.statements.take i, branchBehavior := none }] } := by
  obtain ⟨cnt, fins, rem, lr, lo⟩ := st
  simp only at hrem
  subst hrem
  have hscan : scanLeadingCommands cur.statements 0 = .terminal i := by
    simpa using scanLeadingCommands_terminal cur.statements i 0 hlead hterm
  conv_lhs => rw [processChunks.eq_def]
  simp only [hscan]
  rfl

/-- C6 witness: the theorem applied to a concrete chunk whose statements
are a command, a return, and a trailing command; the chunk is finalized
truncated to the first command only. -/
theorem c6_terminal_command_truncates_witness :
    processChunks 3
        { counter := 0, finals := [],
          remaining := [{ id := 0, returnID := -1,
                          statements := [Stmt.command "foo" "", Stmt.command "return" "",
                            Stmt.command "bar" ""],
                          branchBehavior := none }],
          loopReturn := [], loopOrigin := [] } =
      processChunks 2
        { counter := 0,
          finals := [{ id := 0, returnID := -1,
                       statements := [Stmt.command "foo" ""], branchBehavior := none }],
          remaining := [], loopReturn := [], loopOrigin := [] } :=
  c6_terminal_command_truncates 2
    { counter := 0, finals := [],
      remaining := [{ id := 0, returnID := -1,
                      statements := [Stmt.command "foo" "", Stmt.command "return" "",
                        Stmt.command "bar" ""],
                      branchBehavior := none }],
      loopReturn := [], loopOrigin := [] }
    { id := 0, returnID := -1,
      statements := [Stmt.command "foo" "", Stmt.command "return" "",
        Stmt.command "bar" ""],
      branchBehavior := none }
    [] 1 rfl
    (fun j hj =>
      match j, hj with
      | 0, _ => ⟨"foo", "", rfl, by simp⟩)
    ⟨"return", "", rfl, Or.inr rfl⟩

/-- Freshness relation between a counter/remaining-chunks pair before and
after one of the chunk-creating helpers runs: the counter only grows, the
helper only appends chunks, and every appended chunk carries a fresh id
strictly above the old counter and at most the new counter, with no two
appended ids equal. -/
def FreshExtension (c : Int) (rem : List Chunk) (c' : Int) (rem' : List Chunk) : Prop :=
  c ≤ c' ∧ ∃ new, rem' = rem ++ new ∧
    (∀ ch ∈ new, c < ch.id ∧ ch.id ≤ c') ∧ (new.map Chunk.id).Nodup

theorem FreshExtension.refl (c : Int) (rem : List Chunk) :
    FreshExtension c rem c rem :=
  ⟨le_refl c, [], by simp, by simp, by simp⟩

theorem FreshExtension.trans (c c1 c2 : Int) (rem rem1 rem2 : List Chunk)
    (h1 : FreshExtension c rem c1 rem1) (h2 : FreshExtension c1 rem1 c2 rem2) :
    FreshExtension c rem c2 rem2 := by
  obtain ⟨hc1, new1, rfl, hr1, hn1⟩ := h1
  obtain ⟨hc2, new2, rfl, hr2, hn2⟩ := h2
  refine ⟨le_trans hc1 hc2, new1 ++ new2, by simp, ?_, ?_⟩
  · intro ch hch
    rcases List.mem_append.mp hch with h | h
    · exact ⟨(hr1 ch h).1, le_trans (hr1 ch h).2 hc2⟩
    · exact ⟨lt_of_le_of_lt hc1 (hr2 ch h).1, (hr2 ch h).2⟩
  · rw [List.map_append, List.nodup_append]
    refine ⟨hn1, hn2, ?_⟩
    intro x hx hy
    obtain ⟨ch1, hch1, rfl⟩ := List.mem_map.mp hx
    obtain ⟨ch2, hch2, hid⟩ := List.mem_map.mp hy
    have h1b := (hr1 ch1 hch1).2
    have h2b := (hr2 ch2 hch2).1
    omega

theorem FreshExtension.snoc (c c' : Int) (rem rem' : List Chunk) (ch : Chunk)
    (h : FreshExtension c rem c' rem') (hid : ch.id = c' + 1) :
    FreshExtension c rem (c' + 1) (rem' ++ [ch]) := by
  obtain ⟨hc, new, rfl, hr, hn⟩ := h
  refine ⟨by omega, new ++ [ch], by simp, ?_, ?_⟩
  · intro x hx
    rcases List.mem_append.mp hx with hmem | hmem
    · exact ⟨(hr x hmem).1, by have := (hr x hmem).2; omega⟩
    · simp at hmem
      subst hmem
      omega
  · rw [List.map_append, List.nodup_append]
    refine ⟨hn, by simp, ?_⟩
    intro x hx hy
    obtain ⟨ch1, hch1, rfl⟩ := List.mem_map.mp hx
    simp at hy
    have := (hr ch1 hch1).2
    omega

theorem FreshExtension.consAlloc (c x c' : Int) (rem rem' : List Chunk) (ch : Chunk)
    (hcx : c < x) (hxc : x ≤ c') (h : FreshExtension x rem c' rem') (hid : ch.id = x) :
    FreshExtension c rem c' (rem' ++ [ch]) := by
  obtain ⟨hc, new, rfl, hr, hn⟩ := h
  refine ⟨by omega, new ++ [ch], by simp, ?_, ?_⟩
  · intro y hy
    rcases List.mem_append.mp hy with hmem | hmem
    · exact ⟨by have := (hr y hmem).1; omega, (hr y hmem).2⟩
    · simp at hmem
      subst hmem
      omega
  · rw [List.map_append, List.nodup_append]
    refine ⟨hn, by simp, ?_⟩
    intro y hy hz
    obtain ⟨ch1, hch1, rfl⟩ := List.mem_map.mp hy
    simp at hz
    have := (hr ch1 hch1).1
    omega

/-- Freshness of the boolean-expression linearizer: on success it only
appends chunks with fresh, pairwise distinct ids above the incoming
counter. -/
theorem splitBooleanExpressionChunks_fresh (e : BoolExpr) :
    ∀ (c succ fail : Int) (rem : List Chunk) (fid : Int)
      (rem' : List Chunk) (lnk : Option Chunk) (fid' c' : Int),
      splitBooleanExpressionChunks e c succ fail rem fid = .ok (rem', lnk, fid', c') →
      FreshExtension c rem c' rem' := by
  induction e with
  | op opEx =>
    intro c succ fail rem fid rem' lnk fid' c' h
    simp only [splitBooleanExpressionChunks] at h
    obtain ⟨rfl, rfl, rfl, rfl⟩ :
        rem ++ [_] = rem' ∧ _ ∧ _ ∧ c + 1 = c' := by
      injection h with h
      injection h with h1 h
      injection h with h2 h
      injection h with h3 h4
      exact ⟨h1, h2, h3, h4⟩
    exact (FreshExtension.refl c rem).snoc c c rem rem _ rfl
  | bin operator left right ihl ihr =>
    intro c succ fail rem fid rem' lnk fid' c' h
    cases operator with
    | and =>
      simp only [splitBooleanExpressionChunks] at h
      split at h
      · exact absurd h (by simp)
      · rename_i rem1 leftLink fid1 c1 heq1
        split at h
        · exact absurd h (by simp)
        · rename_i rem2 linkChunk fid2 c2 heq2
          split at h
          · exact absurd h (by simp)
          · rename_i lk
            obtain ⟨rfl, rfl, rfl, rfl⟩ :
                rem2 ++ [_] = rem' ∧ leftLink = lnk ∧ fid2 = fid' ∧ c2 = c' := by
              injection h with h
              injection h with ha h
              injection h with hb h
              injection h with hc hd
              exact ⟨ha, hb, hc, hd⟩
            have hle := ihl (c + 1) (c + 1) fail rem fid rem1 leftLink fid1 c1 heq1
            have hri := ihr c1 succ fail rem1 fid1 rem2 (some lk) fid2 c2 heq2
            have hcomb := FreshExtension.trans (c + 1) c1 c2 rem rem1 rem2 hle hri
            exact FreshExtension.consAlloc c (c + 1) c2 rem rem2 _
              (by omega) (by have := hle.1; have := hri.1; omega) hcomb rfl
    | or =>
      simp only [splitBooleanExpressionChunks] at h
      split at h
      · exact absurd h (by simp)
      · rename_i rem1 leftLink fid1 c1 heq1
        split at h
        · exact absurd h (by simp)
        · rename_i rem2 linkChunk fid2 c2 heq2
          split at h
          · exact absurd h (by simp)
          · rename_i lk
            obtain ⟨rfl, rfl, rfl, rfl⟩ :
                rem2 ++ [_] = rem' ∧ leftLink = lnk ∧ fid2 = fid' ∧ c2 = c' := by
              injection h with h
              injection h with ha h
              injection h with hb h
              injection h with hc hd
              exact ⟨ha, hb, hc, hd⟩
            have hle := ihl (c + 1) succ (c + 1) rem fid rem1 leftLink fid1 c1 heq1
            have hri := ihr c1 succ fail rem1 fid1 rem2 (some lk) fid2 c2 heq2
            have hcomb := FreshExtension.trans (c + 1) c1 c2 rem rem1 rem2 hle hri
            exact FreshExtension.consAlloc c (c + 1) c2 rem rem2 _
              (by omega) (by have := hle.1; have := hri.1; omega) hcomb rfl
    | other s =>
      simp only [splitBooleanExpressionChunks] at h
      obtain ⟨rfl, rfl, rfl, rfl⟩ :
          rem = rem' ∧ none = lnk ∧ fid = fid' ∧ c = c' := by
        injection h with h
        injection h with ha h
        injection h with hb h
        injection h with hc hd
        exact ⟨ha, hb, hc, hd⟩
      exact FreshExtension.refl c rem

/-- Freshness of the chunk-splitting helper. -/
theorem splitChunkForBranch_fresh (cur : Chunk) (i : Nat) (c : Int) (rem : List Chunk)
    (rem' : List Chunk) (rid c' : Int)
    (h : splitChunkForBranch cur i c rem = (rem', rid, c')) :
    FreshExtension c rem c' rem' := by
  unfold splitChunkForBranch at h
  split at h
  · cases h
    exact FreshExtension.refl c rem
  · cases h
    exact (FreshExtension.refl c rem).snoc c c rem rem _ rfl

/-- Freshness of the elif-chunk allocation loop. -/
theorem allocElifChunks_fresh (elifs : List (BoolExpr × List Stmt)) :
    ∀ (retID : Int) (rem : List Chunk) (pairs : List (Int × BoolExpr)) (c : Int)
      (rem' : List Chunk) (pairs' : List (Int × BoolExpr)) (c' : Int),
      allocElifChunks elifs retID rem pairs c = (rem', pairs', c') →
      FreshExtension c rem c' rem' := by
  induction elifs with
  | nil =>
    intro retID rem pairs c rem' pairs' c' h
    cases h
    exact FreshExtension.refl c rem
  | cons head rest ih =>
    obtain ⟨ex, body⟩ := head
    intro retID rem pairs c rem' pairs' c' h
    simp only [allocElifChunks] at h
    have hrec := ih retID (rem ++ [⟨c + 1, retID, body, none⟩])
      (pairs ++ [(c + 1, ex)]) (c + 1) rem' pairs' c' h
    exact FreshExtension.trans c (c + 1) c' rem _ rem'
      ((FreshExtension.refl c rem).snoc c c rem rem _ rfl) hrec

/-- Freshness of the reverse-order elif linearization loop. -/
theorem linearizeElifsRev_fresh (pairs : List (Int × BoolExpr)) :
    ∀ (c failID : Int) (rem : List Chunk) (rem' : List Chunk) (entry c' : Int),
      linearizeElifsRev pairs c failID rem = .ok (rem', entry, c') →
      FreshExtension c rem c' rem' := by
  induction pairs with
  | nil =>
    intro c failID rem rem' entry c' h
    simp only [linearizeElifsRev] at h
    obtain ⟨rfl, rfl, rfl⟩ : rem = rem' ∧ failID = entry ∧ c = c' := by
      injection h with h
      injection h with h1 h
      injection h with h2 h3
      exact ⟨h1, h2, h3⟩
    exact FreshExtension.refl c rem
  | cons head rest ih =>
    obtain ⟨cid, ex⟩ := head
    intro c failID rem rem' entry c' h
    simp only [linearizeElifsRev] at h
    split at h
    · exact absurd h (by simp)
    · rename_i rem1 lnk1 entry1 c1 heq1
      have h1 := splitBooleanExpressionChunks_fresh ex c cid failID rem (-1)
        rem1 lnk1 entry1 c1 heq1
      have h2 := ih c1 entry1 rem1 rem' entry c' h
      exact FreshExtension.trans c c1 c' rem rem1 rem' h1 h2

/-- Freshness of the if-statement chunk construction. -/
theorem createIfStatementChunks_fresh (consExpr : BoolExpr) (consBody : List Stmt)
    (elifs : List (BoolExpr × List Stmt)) (elseB : Option (List Stmt))
    (i : Nat) (cur : Chunk) (rem : List Chunk) (c : Int)
    (rem' : List Chunk) (entry c' : Int)
    (h : createIfStatementChunks consExpr consBody elifs elseB i cur rem c =
      .ok (rem', entry, c')) :
    FreshExtension c rem c' rem' := by
  unfold createIfStatementChunks at h
  rcases hsp : splitChunkForBranch cur i c rem with ⟨rem0, returnID, c0⟩
  rw [hsp] at h
  simp only [] at h
  have hf0 := splitChunkForBranch_fresh cur i c rem rem0 returnID c0 hsp
  rcases hal : allocElifChunks elifs returnID
      (rem0 ++ [⟨c0 + 1, returnID, consBody, none⟩]) [] (c0 + 1) with
    ⟨rem1, elifPairs, c1⟩
  rw [hal] at h
  simp only [] at h
  have hf1 : FreshExtension c rem c1 rem1 := by
    refine FreshExtension.trans c (c0 + 1) c1 rem _ rem1 ?_
      (allocElifChunks_fresh elifs returnID _ [] (c0 + 1) rem1 elifPairs c1 hal)
    exact hf0.snoc c c0 rem rem0 _ rfl
  cases elseB with
  | none =>
    simp only [] at h
    cases elifPairs with
    | nil =>
      simp only [] at h
      split at h
      · exact absurd h (by simp)
      · rename_i rem3 lnk3 entry3 c3 heq3
        obtain ⟨h1, h2, h3⟩ : rem3 = rem' ∧ entry3 = entry ∧ c3 = c' := by
          injection h with h
          injection h with ha h
          injection h with hb hc
          exact ⟨ha, hb, hc⟩
        rw [← h1, ← h3]
        exact FreshExtension.trans c c1 c3 rem rem1 rem3 hf1
          (splitBooleanExpressionChunks_fresh consExpr c1 (c0 + 1) returnID rem1 (-1)
            rem3 lnk3 entry3 c3 heq3)
    | cons p ps =>
      simp only [] at h
      split at h
      · exact absurd h (by simp)
      · rename_i rem3 prevEntry c3 heq3
        split at h
        · exact absurd h (by simp)
        · rename_i rem4 lnk4 entry4 c4 heq4
          obtain ⟨h1, h2, h3⟩ : rem4 = rem' ∧ entry4 = entry ∧ c4 = c' := by
            injection h with h
            injection h with ha h
            injection h with hb hc
            exact ⟨ha, hb, hc⟩
          rw [← h1, ← h3]
          have hf3 := linearizeElifsRev_fresh (p :: ps).reverse c1 returnID rem1
            rem3 prevEntry c3 heq3
          have hf4 := splitBooleanExpressionChunks_fresh consExpr c3 (c0 + 1) prevEntry
            rem3 (-1) rem4 lnk4 entry4 c4 heq4
          exact FreshExtension.trans c c3 c4 rem rem3 rem4
            (FreshExtension.trans c c1 c3 rem rem1 rem3 hf1 hf3) hf4
  | some body =>
    simp only [] at h
    cases elifPairs with
    | nil =>
      simp only [] at h
      split at h
      · exact absurd h (by simp)
      · rename_i rem3 lnk3 entry3 c3 heq3
        obtain ⟨h1, h2, h3⟩ : rem3 = rem' ∧ entry3 = entry ∧ c3 = c' := by
          injection h with h
          injection h with ha h
          injection h with hb hc
          exact ⟨ha, hb, hc⟩
        rw [← h1, ← h3]
        have hf2 : FreshExtension c rem (c1 + 1)
            (rem1 ++ [⟨c1 + 1, returnID, body, none⟩]) :=
          hf1.snoc c c1 rem rem1 _ rfl
        exact FreshExtension.trans c (c1 + 1) c3 rem _ rem3 hf2
          (splitBooleanExpressionChunks_fresh consExpr (c1 + 1) (c0 + 1) (c1 + 1) _ (-1)
            rem3 lnk3 entry3 c3 heq3)
    | cons p ps =>
      simp only [] at h
      split at h
      · exact absurd h (by simp)
      · rename_i rem3 prevEntry c3 heq3
        split at h
        · exact absurd h (by simp)
        · rename_i rem4 lnk4 entry4 c4 heq4
          obtain ⟨h1, h2, h3⟩ : rem4 = rem' ∧ entry4 = entry ∧ c4 = c' := by
            injection h with h
            injection h with ha h
            injection h with hb hc
            exact ⟨ha, hb, hc⟩
          rw [← h1, ← h3]
          have hf2 : FreshExtension c rem (c1 + 1)
              (rem1 ++ [⟨c1 + 1, returnID, body, none⟩]) :=
            hf1.snoc c c1 rem rem1 _ rfl
          have hf3 := linearizeElifsRev_fresh (p :: ps).reverse (c1 + 1) (c1 + 1) _
            rem3 prevEntry c3 heq3
          have hf4 := splitBooleanExpressionChunks_fresh consExpr c3 (c0 + 1) prevEntry
            rem3 (-1) rem4 lnk4 entry4 c4 heq4
          exact FreshExtension.trans c c3 c4 rem rem3 rem4
            (FreshExtension.trans c (c1 + 1) c3 rem _ rem3 hf2 hf3) hf4

/-- Freshness of the while-statement chunk construction. -/
theorem createWhileStatementChunks_fresh (condExpr : BoolExpr) (body : List Stmt)
    (i : Nat) (cur : Chunk) (rem : List Chunk) (c : Int)
    (rem' : List Chunk) (dest retID c' : Int)
    (h : createWhileStatementChunks condExpr body i cur rem c =
      .ok (rem', dest, retID, c')) :
    FreshExtension c rem c' rem' := by
  unfold createWhileStatementChunks at h
  rcases hsp : splitChunkForBranch cur i c rem with ⟨rem0, returnID, c0⟩
  rw [hsp] at h
  simp only [] at h
  have hf0 := splitChunkForBranch_fresh cur i c rem rem0 returnID c0 hsp
  split at h
  · exact absurd h (by simp)
  · rename_i rem1 lnk1 entry1 c1 heq1
    obtain ⟨h1, h2, h3, h4⟩ :
        rem1 ++ [⟨c0 + 1 + 1, c0 + 1, body, none⟩,
          ⟨c0 + 1, returnID, [], some (.jump entry1)⟩] = rem' ∧
        c0 + 1 = dest ∧ returnID = retID ∧ c1 = c' := by
      injection h with h
      injection h with ha h
      injection h with hb h
      injection h with hc hd
      exact ⟨ha, hb, hc, hd⟩
    rw [← h1, ← h4]
    have hf1 := splitBooleanExpressionChunks_fresh condExpr (c0 + 1 + 1) (c0 + 1 + 1)
      returnID rem0 (-1) rem1 lnk1 entry1 c1 heq1
    have hb : FreshExtension (c0 + 1) rem0 c1
        (rem1 ++ [⟨c0 + 1 + 1, c0 + 1, body, none⟩]) :=
      FreshExtension.consAlloc (c0 + 1) (c0 + 1 + 1) c1 rem0 rem1 _
        (by omega) (by have := hf1.1; omega) hf1 rfl
    have hh : FreshExtension c0 rem0 c1
        ((rem1 ++ [⟨c0 + 1 + 1, c0 + 1, body, none⟩]) ++
          [⟨c0 + 1, returnID, [], some (.jump entry1)⟩]) :=
      FreshExtension.consAlloc c0 (c0 + 1) c1 rem0 _ _
        (by omega) (by have := hf1.1; omega) hb rfl
    have hcomb := FreshExtension.trans c c0 c1 rem rem0 _ hf0 hh
    simpa using hcomb

/-- Freshness of the do-while-statement chunk construction. -/
theorem createDoWhileStatementChunks_fresh (condExpr : BoolExpr) (body : List Stmt)
    (i : Nat) (cur : Chunk) (rem : List Chunk) (c : Int)
    (rem' : List Chunk) (dest retID c' : Int)
    (h : createDoWhileStatementChunks condExpr body i cur rem c =
      .ok (rem', dest, retID, c')) :
    FreshExtension c rem c' rem' := by
  unfold createDoWhileStatementChunks at h
  rcases hsp : splitChunkForBranch cur i c rem with ⟨rem0, returnID, c0⟩
  rw [hsp] at h
  simp only [] at h
  have hf0 := splitChunkForBranch_fresh cur i c rem rem0 returnID c0 hsp
  split at h
  · exact absurd h (by simp)
  · rename_i rem1 lnk1 entry1 c1 heq1
    obtain ⟨h1, h2, h3, h4⟩ :
        rem1 ++ [⟨c0 + 1 + 1, c0 + 1, body, none⟩,
          ⟨c0 + 1, returnID, [], some (.jump entry1)⟩] = rem' ∧
        c0 + 1 + 1 = dest ∧ returnID = retID ∧ c1 = c' := by
      injection h with h
      injection h with ha h
      injection h with hb h
      injection h with hc hd
      exact ⟨ha, hb, hc, hd⟩
    rw [← h1, ← h4]
    have hf1 := splitBooleanExpressionChunks_fresh condExpr (c0 + 1 + 1) (c0 + 1 + 1)
      returnID rem0 (-1) rem1 lnk1 entry1 c1 heq1
    have hb : FreshExtension (c0 + 1) rem0 c1
        (rem1 ++ [⟨c0 + 1 + 1, c0 + 1, body, none⟩]) :=
      FreshExtension.consAlloc (c0 + 1) (c0 + 1 + 1) c1 rem0 rem1 _
        (by omega) (by have := hf1.1; omega) hf1 rfl
    have hh : FreshExtension c0 rem0 c1
        ((rem1 ++ [⟨c0 + 1 + 1, c0 + 1, body, none⟩]) ++
          [⟨c0 + 1, returnID, [], some (.jump entry1)⟩]) :=
      FreshExtension.consAlloc c0 (c0 + 1) c1 rem0 _ _
        (by omega) (by have := hf1.1; omega) hb rfl
    have hcomb := FreshExtension.trans c c0 c1 rem rem0 _ hf0 hh
    simpa using hcomb

/-- Invariant of the worklist state: the ids of the finalized and pending
chunks are pairwise distinct overall, and every one of them is at most the
current counter (so freshly allocated ids cannot collide). -/
def BuildInv (st : BuildState) : Prop :=
  ((st.finals ++ st.remaining).map Chunk.id).Nodup ∧
  ∀ ch ∈ st.finals ++ st.remaining, ch.id ≤ st.counter

theorem buildInv_finalize (c : Int) (fins : List Chunk) (cur : Chunk)
    (rest : List Chunk) (lr lo lr2 lo2 : List (Nat × Int)) (cc : Chunk)
    (hid : cc.id = cur.id)
    (hinv : BuildInv ⟨c, fins, cur :: rest, lr, lo⟩) :
    BuildInv ⟨c, fins ++ [cc], rest, lr2, lo2⟩ := by
  obtain ⟨hnd, hle⟩ := hinv
  dsimp only at hnd hle
  unfold BuildInv
  dsimp only
  constructor
  · have hexpand : ((fins ++ [cc]) ++ rest).map Chunk.id =
        (fins ++ cur :: rest).map Chunk.id := by
      simp [hid]
    exact hexpand ▸ hnd
  · intro ch hch
    simp only [List.append_assoc, List.singleton_append, List.mem_append,
      List.mem_cons] at hch
    rcases hch with hm | hm | hm
    · exact hle ch (by simp [hm])
    · subst hm
      rw [hid]
      exact hle cur (by simp)
    · exact hle ch (by simp [hm])

theorem buildInv_branch (c c' : Int) (fins : List Chunk) (cur : Chunk)
    (rest newRem : List Chunk) (lr lo lr2 lo2 : List (Nat × Int)) (cc : Chunk)
    (hid : cc.id = cur.id)
    (hinv : BuildInv ⟨c, fins, cur :: rest, lr, lo⟩)
    (hext : FreshExtension c rest c' newRem) :
    BuildInv ⟨c', fins ++ [cc], newRem, lr2, lo2⟩ := by
  obtain ⟨hnd, hle⟩ := hinv
  dsimp only at hnd hle
  obtain ⟨hcc, new, rfl, hrange, hnewnd⟩ := hext
  unfold BuildInv
  dsimp only
  constructor
  · have hexpand : ((fins ++ [cc]) ++ (rest ++ new)).map Chunk.id =
        ((fins ++ cur :: rest).map Chunk.id) ++ new.map Chunk.id := by
      simp [hid]
    rw [hexpand, List.nodup_append]
    refine ⟨hnd, hnewnd, ?_⟩
    intro x hx hy
    obtain ⟨ch1, hch1, rfl⟩ := List.mem_map.mp hx
    obtain ⟨ch2, hch2, heq2⟩ := List.mem_map.mp hy
    have hb1 := hle ch1 hch1
    have hb2 := (hrange ch2 hch2).1
    omega
  · intro ch hch
    simp only [List.append_assoc, List.singleton_append, List.mem_append,
      List.mem_cons] at hch
    rcases hch with hm | hm | hm | hm
    · have := hle ch (by simp [hm])
      omega
    · subst hm
      rw [hid]
      have := hle cur (by simp)
      omega
    · have := hle ch (by simp [hm])
      omega
    · exact (hrange ch hm).2

/-- Completed worklist runs preserve the invariant down to the final
state: the finalized chunk ids are pairwise distinct. -/
theorem processChunks_done_nodup :
    ∀ (fuel : Nat) (st st' : BuildState), BuildInv st →
      processChunks fuel st = .done st' →
      (st'.finals.map Chunk.id).Nodup := by
  intro fuel
  induction fuel with
  | zero =>
    intro st st' hinv hrun
    obtain ⟨cnt, fins, remn, lr, lo⟩ := st
    rw [processChunks.eq_def] at hrun
    cases remn with
    | nil =>
      cases hrun
      simpa using hinv.1
    | cons cur rest =>
      exact absurd hrun (by simp)
  | succ fuel ih =>
    intro st st' hinv hrun
    obtain ⟨cnt, fins, remn, lr, lo⟩ := st
    rw [processChunks.eq_def] at hrun
    cases remn with
    | nil =>
      cases hrun
      simpa using hinv.1
    | cons cur rest =>
      simp only [] at hrun
      split at hrun
      · rename_i i hscan
        exact ih _ st'
          (buildInv_finalize cnt fins cur rest lr lo lr lo
            (completeChunk cur (-1) i none) rfl hinv) hrun
      · rename_i i hscan
        split at hrun
        · exact ih _ st'
            (buildInv_finalize cnt fins cur rest lr lo lr lo cur rfl hinv) hrun
        · split at hrun
          · rename_i consExpr consBody elifs elseB hget
            split at hrun
            · exact absurd hrun (by simp)
            · rename_i newRem entry c hcreate
              exact ih _ st'
                (buildInv_branch cnt c fins cur rest newRem lr lo lr lo
                  (completeChunk cur cur.returnID i (some (.jump entry))) rfl hinv
                  (createIfStatementChunks_fresh consExpr consBody elifs elseB i cur
                    rest cnt newRem entry c hcreate)) hrun
          · rename_i lid condExpr lbody hget
            split at hrun
            · exact absurd hrun (by simp)
            · rename_i newRem dest returnID c hcreate
              exact ih _ st'
                (buildInv_branch cnt c fins cur rest newRem lr lo
                  ((lid, returnID) :: lr) ((lid, dest) :: lo)
                  (completeChunk cur cur.returnID i (some (.jump dest))) rfl hinv
                  (createWhileStatementChunks_fresh condExpr lbody i cur rest cnt
                    newRem dest returnID c hcreate)) hrun
          · rename_i lid condExpr lbody hget
            split at hrun
            · exact absurd hrun (by simp)
            · rename_i newRem dest returnID c hcreate
              exact ih _ st'
                (buildInv_branch cnt c fins cur rest newRem lr lo
                  ((lid, returnID) :: lr) ((lid, dest) :: lo)
                  (completeChunk cur cur.returnID i (some (.jump dest))) rfl hinv
                  (createDoWhileStatementChunks_fresh condExpr lbody i cur rest cnt
                    newRem dest returnID c hcreate)) hrun
          · rename_i lid hget
            split at hrun
            · exact absurd hrun (by simp)
            · rename_i destChunkID hdest
              exact ih _ st'
                (buildInv_finalize cnt fins cur rest lr lo lr lo
                  (completeChunk cur cur.returnID i
                    (some (.breakContext destChunkID))) rfl hinv) hrun
          · rename_i lid hget
            split at hrun
            · exact absurd hrun (by simp)
            · rename_i destChunkID hdest
              exact ih _ st'
                (buildInv_finalize cnt fins cur rest lr lo lr lo
                  (completeChunk cur cur.returnID i
                    (some (.breakContext destChunkID))) rfl hinv) hrun
          · exact ih _ st'
              (buildInv_finalize cnt fins cur rest lr lo lr lo
                (completeChunk cur cur.returnID i none) rfl hinv) hrun
          · exact ih _ st'
              (buildInv_finalize cnt fins cur rest lr lo lr lo
                (completeChunk cur cur.returnID i none) rfl hinv) hrun

/-- C9: within the compilation of one script statement, whenever the
worklist loop completes, the finalized chunk ids are pairwise distinct —
for an arbitrary script body, hence for arbitrary nesting of
if/while/do-while constructs. Ids are only ever incremented and never
reused (the invariant used in the proof bounds every live id by the
monotone counter), so no two finalized chunks collide on the same id. -/
theorem c9_finalized_chunk_ids_distinct (body : List Stmt) (fuel : Nat)
    (st' : BuildState)
    (h : processChunks fuel (initBuildState body) = .done st') :
    (st'.finals.map Chunk.id).Nodup := by
  refine processChunks_done_nodup fuel (initBuildState body) st' ?_ h
  constructor
  · simp [initBuildState]
  · intro ch hch
    simp only [initBuildState, List.nil_append, List.mem_singleton] at hch
    subst hch
    simp [initBuildState]

/-- C9 witness: the theorem applied to the completed run on a one-command
script body. -/
theorem c9_finalized_chunk_ids_distinct_witness :
    ((BuildState.mk 0 [⟨0, -1, [Stmt.command "foo" ""], none⟩] [] [] []).finals.map
      Chunk.id).Nodup :=
  c9_finalized_chunk_ids_distinct [Stmt.command "foo" ""] 2
    ⟨0, [⟨0, -1, [Stmt.command "foo" ""], none⟩], [], [], []⟩ rfl

/-- Modelled from the spec: the getTailChunkID method of the branch
behavior variants (file chunk.go, which is not available). Jump and
break-like behaviors expose their destination; a conditional leaf exposes
its truthy destination (the natural continuation). -/
def getTailChunkID : BranchBehavior → Int
  | .jump destChunkID => destChunkID
  | .leafExpressionBranch truthyDest _ => truthyDest.id
  | .breakContext destChunkID => destChunkID

/-- Natural next chunk id used by the optimizer (the nextChunkID
computation inside Go function optimizeChunkOrder): the branch behavior's
tail chunk id when present, else the chunk's return id. -/
def naturalNextChunkID (c : Chunk) : Int :=
  match c.branchBehavior with
  | some b => getTailChunkID b
  | none => c.returnID

/-- Lookup of a chunk by id in the finalized-chunk association list (Go
map indexing; a later insertion for the same id overwrites an earlier
one, hence the reverse search). -/
def lookupChunk (chunks : List Chunk) (cid : Int) : Option Chunk :=
  chunks.reverse.find? (fun ch => ch.id == cid)

/-- Key set of the finalized chunk mapping (Go map key set, as a list
without duplicates). -/
def mapKeys (chunks : List Chunk) : List Int :=
  (chunks.map Chunk.id).dedup

/-- Number of entries of the finalized chunk mapping (Go len on the
map). -/
def mapSize (chunks : List Chunk) : Nat :=
  (mapKeys chunks).length

/-- Inner fallback scan of Go function optimizeChunkOrder: starting from
index i, advance while the index is not an unvisited key, and return the
first unvisited key found, if any, before reaching the bound. The fuel is
the number of remaining indices to inspect. -/
def scanAux (keys acc : List Int) : Nat → Nat → Option Nat
  | 0, _ => none
  | steps + 1, i =>
    if Int.ofNat i ∈ keys ∧ Int.ofNat i ∉ acc then some i
    else scanAux keys acc steps (i + 1)

/-- Fallback scan from index i bounded by n (the Go loop for i <
len(chunks)). -/
def scanUnvisited (keys acc : List Int) (n i : Nat) : Option Nat :=
  scanAux keys acc (n - i) i

/-- State of the optimizer's greedy walk: the visited order so far and
the persistent fallback index i (which only ever advances). -/
structure OptState where
  chunkIDs : List Int
  i : Nat

/-- One iteration of the loop of Go function optimizeChunkOrder: follow
the current chunk's natural next id when it is an unvisited key and not
-1, otherwise fall back to the scan; none models an iteration that makes
no progress (the Go loop would then spin forever) or a lookup of a
missing chunk (a Go nil dereference). -/
def optStep (chunks : List Chunk) (st : OptState) : Option OptState :=
  match st.chunkIDs.getLast? with
  | none => none
  | some last =>
    match lookupChunk chunks last with
    | none => none
    | some cur =>
      let nextChunkID := naturalNextChunkID cur
      if nextChunkID ≠ -1 ∧ nextChunkID ∈ mapKeys chunks ∧
          nextChunkID ∉ st.chunkIDs then
        some ⟨st.chunkIDs ++ [nextChunkID], st.i⟩
      else
        match scanUnvisited (mapKeys chunks) st.chunkIDs (mapSize chunks) st.i with
        | some j => some ⟨st.chunkIDs ++ [Int.ofNat j], j⟩
        | none => none

/-- Fueled main loop of Go function optimizeChunkOrder (the loop runs
while fewer ids than map entries have been ordered; each productive
iteration appends exactly one id, so fuel equal to the map size always
suffices when the loop terminates at all). -/
def optRun (chunks : List Chunk) : Nat → OptState → Option (List Int)
  | fuel, st =>
    if mapSize chunks ≤ st.chunkIDs.length then some st.chunkIDs
    else
      match fuel with
      | 0 => none
      | fuel + 1 =>
        match optStep chunks st with
        | none => none
        | some st2 => optRun chunks fuel st2

/-- Chunk-order optimizer (Go function optimizeChunkOrder): id 0 is
seeded first and the greedy walk follows natural successors, falling back
to the lowest-index scan; none models non-termination of the Go loop. -/
def optimizeChunkOrder (chunks : List Chunk) : Option (List Int) :=
  if mapSize chunks = 0 then some []
  else optRun chunks (mapSize chunks) ⟨[0], 1⟩

/-- Lowest-numbered unvisited id below n (declarative form of the
fallback target used to state the optimizer claims). -/
def minUnvisited (n : Nat) (visited : List Int) : Option Nat :=
  (List.range n).find? (fun m => decide (Int.ofNat m ∉ visited))

/-- Fallback property of an emitted order: whenever the natural next id
of the chunk at position k is -1 or already among the ids ordered so far,
the id at position k+1 is the lowest-numbered unvisited id at that
point. -/
def GreedyFallbackProp (chunks : List Chunk) (l : List Int) : Prop :=
  ∀ (k : Nat) (a b : Int), l[k]? = some a → l[k + 1]? = some b →
    ∀ cur, lookupChunk chunks a = some cur →
      (naturalNextChunkID cur = -1 ∨ naturalNextChunkID cur ∈ l.take (k + 1)) →
      ∃ j : Nat, b = Int.ofNat j ∧ minUnvisited (mapSize chunks) (l.take (k + 1)) = some j

theorem scanAux_some (keys acc : List Int) :
    ∀ (fuel i j : Nat), scanAux keys acc fuel i = some j →
      i ≤ j ∧ j < i + fuel ∧ Int.ofNat j ∈ keys ∧ Int.ofNat j ∉ acc ∧
      ∀ m, i ≤ m → m < j → ¬(Int.ofNat m ∈ keys ∧ Int.ofNat m ∉ acc) := by
  intro fuel
  induction fuel with
  | zero =>
    intro i j h
    simp [scanAux] at h
  | succ fuel ih =>
    intro i j h
    simp only [scanAux] at h
    split at h
    · rename_i hcond
      cases h
      exact ⟨le_refl i, by omega, hcond.1, hcond.2,
        fun m hm1 hm2 => ((by omega : False)).elim⟩
    · rename_i hcond
      obtain ⟨h1, h2, h3, h4, h5⟩ := ih (i + 1) j h
      refine ⟨by omega, by omega, h3, h4, ?_⟩
      intro m hm1 hm2
      rcases Nat.eq_or_lt_of_le hm1 with heq | hlt
      · subst heq
        exact hcond
      · exact h5 m (by omega) hm2

theorem scanAux_isSome (keys acc : List Int) :
    ∀ (fuel i j0 : Nat), i ≤ j0 → j0 < i + fuel → Int.ofNat j0 ∈ keys →
      Int.ofNat j0 ∉ acc → (scanAux keys acc fuel i).isSome := by
  intro fuel
  induction fuel with
  | zero =>
    intro i j0 h1 h2 h3 h4
    exact absurd h2 (by omega)
  | succ fuel ih =>
    intro i j0 h1 h2 h3 h4
    simp only [scanAux]
    split
    · simp
    · rename_i hcond
      refine ih (i + 1) j0 ?_ (by omega) h3 h4
      rcases Nat.eq_or_lt_of_le h1 with heq | hlt
      · subst heq
        exact absurd ⟨h3, h4⟩ hcond
      · omega

theorem find?_eq_some_at {α : Type} (l : List α) (p : α → Bool) :
    ∀ (k : Nat) (x : α), l[k]? = some x → p x = true →
      (∀ m y, m < k → l[m]? = some y → p y = false) →
      l.find? p = some x := by
  induction l with
  | nil =>
    intro k x hx
    simp at hx
  | cons a l ih =>
    intro k x hx hpx hbelow
    cases k with
    | zero =>
      simp only [List.getElem?_cons_zero] at hx
      obtain rfl : a = x := by simpa using hx
      exact List.find?_cons_of_pos l hpx
    | succ k =>
      have ha : p a = false := hbelow 0 a (Nat.succ_pos k) (by simp)
      rw [List.find?_cons_of_neg l (by simp [ha])]
      exact ih k x (by simpa using hx) hpx
        (fun m y hm hy => hbelow (m + 1) y (by omega) (by simpa using hy))

/-- Characterization of the lowest unvisited id. -/
theorem minUnvisited_eq_some (n j : Nat) (visited : List Int) (hj : j < n)
    (hout : Int.ofNat j ∉ visited) (hbelow : ∀ m, m < j → Int.ofNat m ∈ visited) :
    minUnvisited n visited = some j := by
  unfold minUnvisited
  refine find?_eq_some_at (List.range n) _ j j ?_ (by simpa using hout) ?_
  · simp [List.getElem?_range hj]
  · intro m y hm hy
    have hyn : y = m := by
      have hmn : m < n := by omega
      simp [List.getElem?_range hmn] at hy
      omega
    subst hyn
    simpa using hbelow y hm

/-- Invariant of the optimizer walk under a contiguous key set: the order
is nonempty, starts at 0, has no duplicates, stays within the key set,
every index below the persistent fallback index is already ordered, and
the fallback index is bounded by the chunk count. -/
def OInv (keys : List Int) (n : Nat) (st : OptState) : Prop :=
  st.chunkIDs ≠ [] ∧ st.chunkIDs.head? = some 0 ∧ st.chunkIDs.Nodup ∧
  (∀ x ∈ st.chunkIDs, x ∈ keys) ∧
  (∀ j : Nat, j < st.i → Int.ofNat j ∈ st.chunkIDs) ∧ st.i ≤ n

theorem rangeMap_nodup (n : Nat) : ((List.range n).map Int.ofNat).Nodup :=
  (List.nodup_range n).map (fun _ _ h => Int.ofNat.inj h)

theorem mapKeys_eq (chunks : List Chunk)
    (hkeys : (chunks.map Chunk.id).Perm ((List.range chunks.length).map Int.ofNat)) :
    mapKeys chunks = chunks.map Chunk.id := by
  unfold mapKeys
  exact List.dedup_eq_self.mpr (hkeys.symm.nodup (rangeMap_nodup chunks.length))

theorem mapSize_eq (chunks : List Chunk)
    (hkeys : (chunks.map Chunk.id).Perm ((List.range chunks.length).map Int.ofNat)) :
    mapSize chunks = chunks.length := by
  unfold mapSize
  rw [mapKeys_eq chunks hkeys]
  simp

theorem lookupChunk_isSome (chunks : List Chunk) (x : Int)
    (hx : x ∈ chunks.map Chunk.id) : ∃ c, lookupChunk chunks x = some c := by
  unfold lookupChunk
  obtain ⟨ch, hch, rfl⟩ := List.mem_map.mp hx
  have hs : ((chunks.reverse).find? (fun c => c.id == ch.id)).isSome :=
    List.find?_isSome.mpr ⟨ch, by simpa using hch, by simp⟩
  exact Option.isSome_iff_exists.mp hs

theorem greedyFallbackProp_append (chunks : List Chunk) (l : List Int) (x : Int)
    (hGF : GreedyFallbackProp chunks l)
    (hnewpair : ∀ a cur, l[l.length - 1]? = some a → lookupChunk chunks a = some cur →
      (naturalNextChunkID cur = -1 ∨ naturalNextChunkID cur ∈ l) →
      ∃ j : Nat, x = Int.ofNat j ∧ minUnvisited (mapSize chunks) l = some j) :
    GreedyFallbackProp chunks (l ++ [x]) := by
  intro k a b ha hb cur hcur hprem
  have hklen : k + 1 < (l ++ [x]).length := (List.getElem?_eq_some.mp hb).1
  simp only [List.length_append, List.length_singleton] at hklen
  by_cases hk : k + 1 < l.length
  · have ha2 : l[k]? = some a := by
      rw [List.getElem?_append_left (by omega)] at ha
      exact ha
    have hb2 : l[k + 1]? = some b := by
      rw [List.getElem?_append_left hk] at hb
      exact hb
    have htake : (l ++ [x]).take (k + 1) = l.take (k + 1) :=
      List.take_append_of_le_length (by omega)
    rw [htake] at hprem ⊢
    exact hGF k a b ha2 hb2 cur hcur hprem
  · have hkl : k + 1 = l.length := by omega
    have hlne : l ≠ [] := by
      intro hcon
      rw [hcon] at hkl
      simp at hkl
    have hb2 : b = x := by
      rw [hkl, List.getElem?_concat_length] at hb
      exact (Option.some.inj hb).symm
    have hk0 : k = l.length - 1 := by omega
    have ha2 : l[l.length - 1]? = some a := by
      rw [← hk0]
      rw [List.getElem?_append_left (by omega)] at ha
      exact ha
    have htake : (l ++ [x]).take (k + 1) = l := by
      rw [hkl]
      exact List.take_left l [x]
    rw [htake] at hprem ⊢
    obtain ⟨j, hj1, hj2⟩ := hnewpair a cur ha2 hcur hprem
    exact ⟨j, hb2.trans hj1, hj2⟩

theorem optStep_spec (chunks : List Chunk)
    (hkeys : (chunks.map Chunk.id).Perm ((List.range chunks.length).map Int.ofNat))
    (st : OptState) (hinv : OInv (chunks.map Chunk.id) chunks.length st)
    (hlt : st.chunkIDs.length < chunks.length) :
    ∃ x st', optStep chunks st = some st' ∧
      st'.chunkIDs = st.chunkIDs ++ [x] ∧ st'.i ≤ chunks.length ∧
      OInv (chunks.map Chunk.id) chunks.length st' ∧
      (GreedyFallbackProp chunks st.chunkIDs →
        GreedyFallbackProp chunks st'.chunkIDs) := by
  obtain ⟨acc, i⟩ := st
  obtain ⟨hne, hhead, hnodup, hsub, hbelow, hile⟩ := hinv
  dsimp only at hne hhead hnodup hsub hbelow hile hlt ⊢
  obtain ⟨last, hlast⟩ :=
    Option.isSome_iff_exists.mp (List.getLast?_isSome.mpr hne)
  have hlastmem : last ∈ acc := List.mem_of_getLast?_eq_some hlast
  obtain ⟨cur, hcur⟩ := lookupChunk_isSome chunks last (hsub last hlastmem)
  unfold optStep
  dsimp only
  simp only [hlast, hcur]
  have hgetlast : acc[acc.length - 1]? = some last := by
    rw [← List.getLast?_eq_getElem?]
    exact hlast
  by_cases hcond : naturalNextChunkID cur ≠ -1 ∧
      naturalNextChunkID cur ∈ mapKeys chunks ∧ naturalNextChunkID cur ∉ acc
  · rw [if_pos hcond]
    refine ⟨naturalNextChunkID cur, ⟨acc ++ [naturalNextChunkID cur], i⟩, rfl, rfl,
      hile, ?_, ?_⟩
    · refine ⟨by simp, ?_, ?_, ?_, ?_, hile⟩
      · dsimp only
        rw [List.head?_append, hhead]
        rfl
      · dsimp only
        rw [List.nodup_append]
        refine ⟨hnodup, by simp, ?_⟩
        intro y hy hy2
        simp at hy2
        subst hy2
        exact hcond.2.2 hy
      · intro y hy
        dsimp only at hy
        rcases List.mem_append.mp hy with hm | hm
        · exact hsub y hm
        · simp at hm
          subst hm
          rw [mapKeys_eq chunks hkeys] at hcond
          exact hcond.2.1
      · intro j hj
        dsimp only at hj ⊢
        exact List.mem_append.mpr (Or.inl (hbelow j hj))
    · intro hGF
      refine greedyFallbackProp_append chunks acc _ hGF ?_
      intro a cur2 ha hcur2 hprem
      have haeq : a = last := by
        rw [hgetlast] at ha
        exact (Option.some.inj ha).symm
      subst haeq
      rw [hcur] at hcur2
      obtain rfl : cur2 = cur := (Option.some.inj hcur2).symm
      rcases hprem with hp | hp
      · exact absurd hp hcond.1
      · exact absurd hp hcond.2.2
  · rw [if_neg hcond]
    have hkeysR : ∀ m : Nat, m < chunks.length → Int.ofNat m ∈ chunks.map Chunk.id :=
      fun m hm => hkeys.mem_iff.mpr
        (List.mem_map.mpr ⟨m, List.mem_range.mpr hm, rfl⟩)
    have hex : ∃ j0 : Nat, j0 < chunks.length ∧ Int.ofNat j0 ∉ acc := by
      by_contra hcon
      push_neg at hcon
      have hsubr : ((List.range chunks.length).map Int.ofNat) ⊆ acc := by
        intro y hy
        obtain ⟨m, hm, rfl⟩ := List.mem_map.mp hy
        exact hcon m (List.mem_range.mp hm)
      have hlen := ((rangeMap_nodup chunks.length).subperm hsubr).length_le
      simp at hlen
      omega
    obtain ⟨j0, hj0n, hj0out⟩ := hex
    have hj0i : i ≤ j0 := by
      by_contra hcon
      exact hj0out (hbelow j0 (by omega))
    have hscansome : (scanAux (mapKeys chunks) acc (mapSize chunks - i) i).isSome := by
      refine scanAux_isSome (mapKeys chunks) acc (mapSize chunks - i) i j0 hj0i ?_ ?_ hj0out
      · rw [mapSize_eq chunks hkeys]
        omega
      · rw [mapKeys_eq chunks hkeys]
        exact hkeysR j0 hj0n
    obtain ⟨j, hj⟩ := Option.isSome_iff_exists.mp hscansome
    obtain ⟨hij, hjlt, hjkeys, hjout, hjmin⟩ :=
      scanAux_some (mapKeys chunks) acc (mapSize chunks - i) i j hj
    rw [mapSize_eq chunks hkeys] at hjlt
    have hjn : j < chunks.length := by omega
    have hjbelow : ∀ m, m < j → Int.ofNat m ∈ acc := by
      intro m hm
      by_cases hmi : m < i
      · exact hbelow m hmi
      · have hnot := hjmin m (by omega) hm
        have hmk : Int.ofNat m ∈ mapKeys chunks := by
          rw [mapKeys_eq chunks hkeys]
          exact hkeysR m (by omega)
        by_contra hout
        exact hnot ⟨hmk, hout⟩
    have hmin : minUnvisited chunks.length acc = some j :=
      minUnvisited_eq_some chunks.length j acc hjn hjout hjbelow
    have hscan : scanUnvisited (mapKeys chunks) acc (mapSize chunks) i = some j := hj
    simp only [hscan]
    refine ⟨Int.ofNat j, ⟨acc ++ [Int.ofNat j], j⟩, rfl, rfl, by dsimp only; omega,
      ?_, ?_⟩
    · refine ⟨by simp, ?_, ?_, ?_, ?_, by dsimp only; omega⟩
      · dsimp only
        rw [List.head?_append, hhead]
        rfl
      · dsimp only
        rw [List.nodup_append]
        refine ⟨hnodup, by simp, ?_⟩
        intro y hy hy2
        simp at hy2
        subst hy2
        exact hjout hy
      · intro y hy
        dsimp only at hy
        rcases List.mem_append.mp hy with hm | hm
        · exact hsub y hm
        · simp at hm
          subst hm
          rw [mapKeys_eq chunks hkeys] at hjkeys
          exact hjkeys
      · intro m hm
        dsimp only at hm ⊢
        exact List.mem_append.mpr (Or.inl (hjbelow m hm))
    · intro hGF
      refine greedyFallbackProp_append chunks acc _ hGF ?_
      intro a cur2 ha hcur2 hprem
      refine ⟨j, rfl, ?_⟩
      rw [mapSize_eq chunks hkeys]
      exact hmin

theorem optRun_spec (chunks : List Chunk)
    (hkeys : (chunks.map Chunk.id).Perm ((List.range chunks.length).map Int.ofNat)) :
    ∀ (fuel : Nat) (st : OptState),
      OInv (chunks.map Chunk.id) chunks.length st →
      GreedyFallbackProp chunks st.chunkIDs →
      chunks.length ≤ st.chunkIDs.length + fuel →
      ∃ l, optRun chunks fuel st = some l ∧ l.Nodup ∧
        (∀ x ∈ l, x ∈ chunks.map Chunk.id) ∧ l.head? = some 0 ∧
        l.length = chunks.length ∧ GreedyFallbackProp chunks l := by
  intro fuel
  induction fuel with
  | zero =>
    intro st hinv hGF hacct
    obtain ⟨hne, hhead, hnodup, hsub, hbelow, hile⟩ := hinv
    have hlen : st.chunkIDs.length ≤ chunks.length := by
      have h1 := (hnodup.subperm hsub).length_le
      simpa using h1
    have hlen2 : st.chunkIDs.length = chunks.length := by omega
    rw [optRun.eq_def]
    dsimp only
    rw [if_pos (by rw [mapSize_eq chunks hkeys]; omega)]
    exact ⟨st.chunkIDs, rfl, hnodup, hsub, hhead, hlen2, hGF⟩
  | succ fuel ih =>
    intro st hinv hGF hacct
    obtain ⟨hne, hhead, hnodup, hsub, hbelow, hile⟩ := hinv
    have hlen : st.chunkIDs.length ≤ chunks.length := by
      have h1 := (hnodup.subperm hsub).length_le
      simpa using h1
    rw [optRun.eq_def]
    dsimp only
    by_cases hfull : st.chunkIDs.length = chunks.length
    · rw [if_pos (by rw [mapSize_eq chunks hkeys]; omega)]
      exact ⟨st.chunkIDs, rfl, hnodup, hsub, hhead, hfull, hGF⟩
    · rw [if_neg (by rw [mapSize_eq chunks hkeys]; omega)]
      obtain ⟨x, st2, hstep, happ, hi2, hinv2, hGF2⟩ :=
        optStep_spec chunks hkeys st ⟨hne, hhead, hnodup, hsub, hbelow, hile⟩
          (by omega)
      simp only [hstep]
      refine ih st2 hinv2 (hGF2 hGF) ?_
      rw [happ]
      simp
      omega

/-- Combined specification of the chunk-order optimizer under a
contiguous key set: the run terminates with an order that is a
permutation of the keys, starts at id 0 (when any chunk exists), and
satisfies the fallback property. -/
theorem optimizeChunkOrder_spec (chunks : List Chunk)
    (hkeys : (chunks.map Chunk.id).Perm ((List.range chunks.length).map Int.ofNat)) :
    ∃ l, optimizeChunkOrder chunks = some l ∧
      l.Perm ((List.range chunks.length).map Int.ofNat) ∧
      (0 < chunks.length → l.head? = some 0) ∧
      GreedyFallbackProp chunks l := by
  unfold optimizeChunkOrder
  by_cases h0 : mapSize chunks = 0
  · rw [if_pos h0]
    rw [mapSize_eq chunks hkeys] at h0
    refine ⟨[], rfl, ?_, by omega, ?_⟩
    · rw [h0]
      simp
    · intro k a b ha
      simp at ha
  · rw [if_neg h0]
    rw [mapSize_eq chunks hkeys] at h0
    have hpos : 0 < chunks.length := by omega
    have hinit : OInv (chunks.map Chunk.id) chunks.length ⟨[0], 1⟩ := by
      refine ⟨by simp, rfl, by simp, ?_, ?_, by dsimp only; omega⟩
      · intro x hx
        simp at hx
        subst hx
        exact hkeys.mem_iff.mpr (List.mem_map.mpr ⟨0, List.mem_range.mpr hpos, rfl⟩)
      · intro j hj
        dsimp only at hj
        have hj0 : j = 0 := by omega
        subst hj0
        simp
    have hGF0 : GreedyFallbackProp chunks [0] := by
      intro k a b ha hb
      rcases k with _ | k <;> simp at hb
    obtain ⟨l, hrun, hnodup, hsub, hhead, hlen, hGF⟩ :=
      optRun_spec chunks hkeys chunks.length ⟨[0], 1⟩ hinit hGF0 (by simp)
    rw [mapSize_eq chunks hkeys]
    refine ⟨l, hrun, ?_, fun _ => hhead, hGF⟩
    have hsp := (hnodup.subperm hsub).trans hkeys.subperm
    refine hsp.perm_of_length_le ?_
    simp [hlen]

/-- C10: the chunk-order optimizer terminates for every chunk mapping
whose key set is exactly the contiguous range 0..n-1 (n the number of
chunks): under that precondition the fallback scan always finds an
unvisited id while any remains, so the main loop appends one id per
iteration and fuel equal to the chunk count suffices. -/
theorem c10_optimizeChunkOrder_terminates (chunks : List Chunk)
    (hkeys : (chunks.map Chunk.id).Perm ((List.range chunks.length).map Int.ofNat)) :
    ∃ l, optimizeChunkOrder chunks = some l := by
  obtain ⟨l, hrun, _⟩ := optimizeChunkOrder_spec chunks hkeys
  exact ⟨l, hrun⟩

/-- C10 witness: termination on a concrete two-chunk mapping. -/
theorem c10_optimizeChunkOrder_terminates_witness :
    ∃ l, optimizeChunkOrder
      [⟨0, -1, [], some (.jump 1)⟩, ⟨1, -1, [], none⟩] = some l :=
  c10_optimizeChunkOrder_terminates
    [⟨0, -1, [], some (.jump 1)⟩, ⟨1, -1, [], none⟩] (by decide)

/-- C5: for every finalized chunk mapping whose key set is the contiguous
range 0..n-1, the optimizer returns a sequence containing every chunk id
exactly once (a permutation of the key set), starting with id 0; and
whenever the current chunk's natural next id (the branch behavior's tail
id, else the return id) is already visited or is -1, the id appended next
is the lowest-numbered unvisited id. -/
theorem c5_optimizeChunkOrder_order (chunks : List Chunk) (hpos : 0 < chunks.length)
    (hkeys : (chunks.map Chunk.id).Perm ((List.range chunks.length).map Int.ofNat)) :
    ∃ l, optimizeChunkOrder chunks = some l ∧
      l.Perm ((List.range chunks.length).map Int.ofNat) ∧
      l.head? = some 0 ∧ GreedyFallbackProp chunks l := by
  obtain ⟨l, hrun, hperm, hhead, hGF⟩ := optimizeChunkOrder_spec chunks hkeys
  exact ⟨l, hrun, hperm, hhead hpos, hGF⟩

/-- C5 witness: the theorem applied to a concrete three-chunk mapping in
which chunk 0 jumps to chunk 2 and chunk 2 terminates, forcing the
fallback to pick chunk 1 last. -/
theorem c5_optimizeChunkOrder_order_witness :
    ∃ l, optimizeChunkOrder
        [⟨0, -1, [], some (.jump 2)⟩, ⟨1, -1, [], none⟩,
         ⟨2, -1, [], none⟩] = some l ∧
      l.Perm ((List.range 3).map Int.ofNat) ∧ l.head? = some 0 ∧
      GreedyFallbackProp
        [⟨0, -1, [], some (.jump 2)⟩, ⟨1, -1, [], none⟩, ⟨2, -1, [], none⟩] l :=
  c5_optimizeChunkOrder_order
    [⟨0, -1, [], some (.jump 2)⟩, ⟨1, -1, [], none⟩, ⟨2, -1, [], none⟩]
    (by decide) (by decide)

/-- Modelled from the spec: rendering of one opaque command line of a
chunk body (the renderStatements method of chunk.go, which is not
available). The exact text is opaque to the claims; statements other than
commands never survive into finalized chunks. -/
def renderStatementLine : Stmt → String
  | .command name args =>
    "\t" ++ name ++ (if args = "" then "" else " " ++ args) ++ "\n"
  | _ => ""

/-- Modelled from the spec: label name of a chunk. Chunk 0 is the
script's entry and uses the script name itself; other chunks use the
scriptName_N form of the output contract. -/
def chunkLabelName (scriptName : String) (cid : Int) : String :=
  if cid = 0 then scriptName else scriptName ++ "_" ++ toString cid

/-- Modelled from the spec: a rendered label line (the renderLabel method
of chunk.go, which is not available). -/
def chunkLabel (scriptName : String) (cid : Int) : String :=
  chunkLabelName scriptName cid ++ ":\n"

/-- Modelled from the spec: an unconditional jump command line. -/
def gotoLine (scriptName : String) (dest : Int) : String :=
  "\tgoto " ++ chunkLabelName scriptName dest ++ "\n"

/-- Modelled from the spec: the conditional-jump command line provided by
the collaborator for an atomic comparison, targeting a chunk label. -/
def condJumpLine (scriptName : String) (opEx : OperatorExpression) (dest : Int) :
    String :=
  "\t" ++ opEx.text ++ " " ++ chunkLabelName scriptName dest ++ "\n"

/-- Modelled from the spec: the renderBranching method of chunk.go (which
is not available), per the renderer contract. Returns the emitted text,
the list of destination ids of jumps actually emitted (the register
callback of renderChunks), and whether control falls through to the next
chunk in order. Transfers to the next chunk in the chosen order are
elided; a return id of -1 (script end) emits nothing. -/
def renderBranching (scriptName : String) (c : Chunk) (next : Int) :
    String × List Int × Bool :=
  match c.branchBehavior with
  | none =>
    if c.returnID = next then ("", [], true)
    else if c.returnID = -1 then ("", [], false)
    else (gotoLine scriptName c.returnID, [c.returnID], false)
  | some (.jump dest) =>
    if dest = next then ("", [], true)
    else (gotoLine scriptName dest, [dest], false)
  | some (.breakContext dest) =>
    if dest = next then ("", [], true)
    else (gotoLine scriptName dest, [dest], false)
  | some (.leafExpressionBranch tdest falsey) =>
    let head := condJumpLine scriptName tdest.operatorExpression tdest.id
    if falsey = next then (head, [tdest.id], true)
    else if falsey = -1 then (head, [tdest.id], false)
    else (head ++ gotoLine scriptName falsey, [tdest.id, falsey], false)

/-- Destinations of the jump and conditional-jump commands actually
emitted for a chunk, given the next chunk in the chosen order — elided
fallthrough transfers excluded. Stated independently of the renderer, for
the label-minimality claim. -/
def emittedJumpDests (c : Chunk) (next : Int) : List Int :=
  match c.branchBehavior with
  | none => if c.returnID = next ∨ c.returnID = -1 then [] else [c.returnID]
  | some (.jump dest) => if dest = next then [] else [dest]
  | some (.breakContext dest) => if dest = next then [] else [dest]
  | some (.leafExpressionBranch tdest falsey) =>
    tdest.id :: (if falsey = next ∨ falsey = -1 then [] else [falsey])

theorem renderBranching_dests (scriptName : String) (c : Chunk) (next : Int) :
    (renderBranching scriptName c next).2.1 = emittedJumpDests c next := by
  unfold renderBranching emittedJumpDests
  rcases c.branchBehavior with _ | b
  · dsimp only
    by_cases h1 : c.returnID = next <;> by_cases h2 : c.returnID = -1 <;> simp_all
  · cases b with
    | jump dest => by_cases h1 : dest = next <;> simp [h1]
    | breakContext dest => by_cases h1 : dest = next <;> simp [h1]
    | leafExpressionBranch tdest falsey =>
      dsimp only
      by_cases h1 : falsey = next <;> by_cases h2 : falsey = -1 <;> simp_all

/-- Body text of one chunk in the first rendering pass: its command
lines, then its branching commands, then the blank separator line when
control does not fall through. -/
def chunkBodyText (scriptName : String) (chunks : List Chunk) (cid next : Int) :
    String :=
  match lookupChunk chunks cid with
  | none => ""
  | some c =>
    let stmtsText := String.join (c.statements.map renderStatementLine)
    let r := renderBranching scriptName c next
    stmtsText ++ r.1 ++ (if r.2.2 then "" else "\n")

/-- Order positions paired with the next id in the chosen order (-1 for
the last position), as used by both rendering passes. -/
def orderPairs (order : List Int) : List (Int × Int) :=
  order.zip (order.drop 1 ++ [-1])

/-- Insertion of an integer into a sorted list (used to model Go
sort.Ints on the chunk ids). -/
def insertSorted (x : Int) : List Int → List Int
  | [] => [x]
  | y :: ys => if x ≤ y then x :: y :: ys else y :: insertSorted x ys

/-- Insertion sort on integers (Go sort.Ints on the map keys, used when
optimization is disabled). -/
def sortInts : List Int → List Int
  | [] => []
  | x :: xs => insertSorted x (sortInts xs)

/-- Modelled from the spec: the renderChunks method of the emitter, per
the renderer contract (two passes: bodies first, recording which
destination ids were actually the target of an emitted jump, then labels
plus bodies; a chunk's label is rendered iff it is chunk 0 or a recorded
jump target). When optimization is enabled the order comes from
optimizeChunkOrder (none when its loop would not terminate); otherwise
the sorted key list is used. -/
def renderChunks (optimize : Bool) (chunks : List Chunk) (scriptName : String) :
    Option String :=
  match (if optimize then optimizeChunkOrder chunks
         else some (sortInts (mapKeys chunks))) with
  | none => none
  | some chunkIDs =>
    let pairs := orderPairs chunkIDs
    let jumpChunks := pairs.flatMap (fun p =>
      match lookupChunk chunks p.1 with
      | none => []
      | some c => (renderBranching scriptName c p.2).2.1)
    some (String.join (pairs.map (fun p =>
      (if p.1 = 0 ∨ p.1 ∈ jumpChunks then chunkLabel scriptName p.1 else "") ++
      chunkBodyText scriptName chunks p.1 p.2)))

/-- Position d is the destination of at least one jump or
conditional-jump emitted during the body-rendering pass over the given
order (elided fallthrough transfers do not count). -/
def IsEmittedJumpTarget (chunks : List Chunk) (order : List Int) (d : Int) : Prop :=
  ∃ (k : Nat) (p : Int × Int), (orderPairs order)[k]? = some p ∧
    ∃ c, lookupChunk chunks p.1 = some c ∧ d ∈ emittedJumpDests c p.2

/-- C7: in the rendered output of a script statement, each position's
label appears immediately before its body iff the chunk is chunk 0 or it
is the destination of at least one jump or conditional-jump actually
emitted during the body-rendering pass over the chosen order (elided
fallthrough transfers do not count): the output is exactly the
concatenation, over the order, of the conditionally rendered label
followed by the chunk's body, where the label condition is equivalent to
being chunk 0 or an emitted jump target. -/
theorem c7_label_rendered_iff (optimize : Bool) (chunks : List Chunk)
    (scriptName : String) (out : String)
    (h : renderChunks optimize chunks scriptName = some out) :
    ∃ (order : List Int) (jt : List Int),
      (if optimize then optimizeChunkOrder chunks
       else some (sortInts (mapKeys chunks))) = some order ∧
      out = String.join ((orderPairs order).map (fun p =>
        (if p.1 = 0 ∨ p.1 ∈ jt then chunkLabel scriptName p.1 else "") ++
        chunkBodyText scriptName chunks p.1 p.2)) ∧
      (∀ d, d ∈ jt ↔ IsEmittedJumpTarget chunks order d) := by
  unfold renderChunks at h
  split at h
  · exact absurd h (by simp)
  · rename_i order horder
    refine ⟨order, (orderPairs order).flatMap (fun p =>
      match lookupChunk chunks p.1 with
      | none => []
      | some c => (renderBranching scriptName c p.2).2.1), horder, ?_, ?_⟩
    · exact (Option.some.inj h).symm
    · intro d
      rw [List.mem_flatMap]
      constructor
      · rintro ⟨p, hp, hd⟩
        obtain ⟨k, hk⟩ := List.mem_iff_get?.mp hp
        rw [List.get?_eq_getElem?] at hk
        refine ⟨k, p, hk, ?_⟩
        cases hlu : lookupChunk chunks p.1 with
        | none =>
          rw [hlu] at hd
          simp at hd
        | some c =>
          rw [hlu] at hd
          have hd2 : d ∈ (renderBranching scriptName c p.2).2.1 := hd
          rw [renderBranching_dests] at hd2
          exact ⟨c, rfl, hd2⟩
      · rintro ⟨k, p, hk, c, hlu, hd⟩
        refine ⟨p, List.mem_iff_get?.mpr ⟨k, ?_⟩, ?_⟩
        · rw [List.get?_eq_getElem?]
          exact hk
        · rw [hlu]
          show d ∈ (renderBranching scriptName c p.2).2.1
          rw [renderBranching_dests]
          exact hd

/-- C7 witness: the theorem applied to the rendering of a single
terminal chunk, whose output is just the entry label. -/
theorem c7_label_rendered_iff_witness :
    ∃ (order : List Int) (jt : List Int),
      (if true then optimizeChunkOrder [⟨0, -1, [], none⟩]
       else some (sortInts (mapKeys [⟨0, -1, [], none⟩]))) = some order ∧
      ("GreetingScript:\n" : String) = String.join ((orderPairs order).map (fun p =>
        (if p.1 = 0 ∨ p.1 ∈ jt then chunkLabel "GreetingScript" p.1 else "") ++
        chunkBodyText "GreetingScript" [⟨0, -1, [], none⟩] p.1 p.2)) ∧
      (∀ d, d ∈ jt ↔ IsEmittedJumpTarget [⟨0, -1, [], none⟩] order d) :=
  c7_label_rendered_iff true [⟨0, -1, [], none⟩] "GreetingScript"
    "GreetingScript:\n" rfl

/-- Top-level statements of a program, per the input data contract; the
other constructor stands for any statement variant that is neither a
script statement nor a raw statement (in Go, any further ast.Statement
implementation), carrying its token literal. -/
inductive TopLevelStmt where
  | script (name : String) (body : List Stmt)
  | raw (value : String)
  | other (literal : String)

/-- Named text block of a program, per the input data contract. -/
structure Text where
  name : String
  value : String

/-- Parsed program consumed by the emitter. -/
structure Program where
  topLevelStatements : List TopLevelStmt
  texts : List Text

/-- Emitter configuration (Go struct Emitter). -/
structure Emitter where
  program : Program
  optimize : Bool

/-- Emission of one raw statement (Go function emitRawStatement). -/
def emitRawStatement (value : String) : String :=
  value ++ "\n"

/-- Emission of one text block (Go function emitText). -/
def emitText (t : Text) : String :=
  t.name ++ ":\n" ++
    String.join ((t.value.splitOn "\n").map (fun line =>
      "\t.string \x22" ++ line ++ "\x22\n"))

/-- Message printed to standard output by Emit for an unrecognized
top-level statement. -/
def unrecognizedMsg (literal : String) : String :=
  "Could not emit top-level statement because it is not recognized: " ++ literal

/-- Outcome of Emit: the returned string together with anything printed
to standard output, a propagated panic, or an incomplete run (fuel
exhaustion or optimizer divergence). -/
inductive EmitResult where
  | ok (output : String) (printed : List String)
  | panicked (msg : String)
  | incomplete

/-- Emission of one script statement (Go method emitScriptStatement):
build the chunks with the worklist loop, then render them. -/
def emitScriptStatement (fuel : Nat) (optimize : Bool) (name : String)
    (body : List Stmt) : EmitResult :=
  match processChunks fuel (initBuildState body) with
  | .done st =>
    match renderChunks optimize st.finals name with
    | some s => .ok s []
    | none => .incomplete
  | .panicked m => .panicked m
  | .outOfFuel => .incomplete

/-- Loop of Go method Emit over the top-level statements; i counts the
blocks emitted so far and a blank separator line precedes every block
after the first. The right alternative carries the built output and the
final count on normal completion of the loop; the left alternative is an
early return (an unrecognized statement returns the empty string after
printing a message, discarding everything built so far; a panic
propagates). -/
def emitLoop (fuel : Nat) (optimize : Bool) :
    List TopLevelStmt → Nat → String → EmitResult ⊕ (String × Nat)
  | [], i, sb => Sum.inr (sb, i)
  | stmt :: rest, i, sb =>
    let sb := if i > 0 then sb ++ "\n" else sb
    match stmt with
    | .script name body =>
      match emitScriptStatement fuel optimize name body with
      | .ok text _ => emitLoop fuel optimize rest (i + 1) (sb ++ text)
      | .panicked m => Sum.inl (.panicked m)
      | .incomplete => Sum.inl .incomplete
    | .raw value => emitLoop fuel optimize rest (i + 1) (sb ++ emitRawStatement value)
    | .other literal => Sum.inl (.ok "" [unrecognizedMsg literal])

/-- Loop of Go method Emit over the text blocks, continuing the block
count from the statement loop. -/
def emitTexts : List Text → Nat → String → String
  | [], _, sb => sb
  | t :: rest, ij, sb =>
    let sb := if ij > 0 then sb ++ "\n" else sb
    emitTexts rest (ij + 1) (sb ++ emitText t)

/-- Go method Emit: emit every top-level statement, then every text
block; an unrecognized top-level statement prints a diagnostic and makes
the whole call return the empty string. -/
def Emit (fuel : Nat) (e : Emitter) : EmitResult :=
  match emitLoop fuel e.optimize e.program.topLevelStatements 0 "" with
  | Sum.inl r => r
  | Sum.inr (sb, i) => .ok (emitTexts e.program.texts i sb) []

/-- C2 counterexample: a program whose top level is a valid script
followed by an unrecognized statement, with a text block. Emit returns
the empty string for the whole program — the error is only printed, not
surfaced to the caller, and the valid script's output and the texts are
discarded — refuting the claim that a construction error is surfaced and
that empty whole-program output is not returned. -/
theorem c2_unrecognized_returns_empty_counterexample :
    Emit 50
      ⟨⟨[TopLevelStmt.script "Main" [Stmt.command "foo" ""],
         TopLevelStmt.other "weird"], [⟨"T", "hello"⟩]⟩, true⟩ =
      .ok "" [unrecognizedMsg "weird"] :=
  rfl

theorem emitLoop_other (fuel : Nat) (optimize : Bool) :
    ∀ (stmts : List TopLevelStmt) (i : Nat) (sb : String),
      (∃ lit, TopLevelStmt.other lit ∈ stmts) →
      (∀ r, emitLoop fuel optimize stmts i sb ≠ Sum.inr r) ∧
      (∀ out printed, emitLoop fuel optimize stmts i sb = Sum.inl (.ok out printed) →
        out = "" ∧ ∃ lit, printed = [unrecognizedMsg lit]) := by
  intro stmts
  induction stmts with
  | nil =>
    intro i sb hex
    obtain ⟨lit, hlit⟩ := hex
    simp at hlit
  | cons stmt rest ih =>
    intro i sb hex
    cases stmt with
    | script name body =>
      have hex2 : ∃ lit, TopLevelStmt.other lit ∈ rest := by
        obtain ⟨lit, hlit⟩ := hex
        rcases List.mem_cons.mp hlit with hc | hc
        · exact absurd hc (by simp)
        · exact ⟨lit, hc⟩
      simp only [emitLoop]
      cases emitScriptStatement fuel optimize name body with
      | ok text printed => exact ih (i + 1) _ hex2
      | panicked m =>
        constructor
        · intro r hr
          simp at hr
        · intro out printed hr
          simp at hr
      | incomplete =>
        constructor
        · intro r hr
          simp at hr
        · intro out printed hr
          simp at hr
    | raw value =>
      have hex2 : ∃ lit, TopLevelStmt.other lit ∈ rest := by
        obtain ⟨lit, hlit⟩ := hex
        rcases List.mem_cons.mp hlit with hc | hc
        · exact absurd hc (by simp)
        · exact ⟨lit, hc⟩
      simp only [emitLoop]
      exact ih (i + 1) _ hex2
    | other literal =>
      simp only [emitLoop]
      constructor
      · intro r hr
        simp at hr
      · intro out printed hr
        simp only [Sum.inl.injEq] at hr
        obtain ⟨h1, h2⟩ : "" = out ∧ [unrecognizedMsg literal] = printed := by
          injection hr with h1 h2
          exact ⟨h1, h2⟩
        exact ⟨h1.symm, literal, h2.symm⟩

/-- C2 (amended): whenever Emit returns normally on a program containing
an unrecognized top-level statement, the returned output for the whole
program is the empty string and the only thing produced is a printed
diagnostic naming the first such statement: the statement is not
silently skipped (emission aborts at it), but the error is not surfaced
to the caller as an error value, and the whole program's output is
empty. -/
theorem c2_unrecognized_prints_and_returns_empty (fuel : Nat) (e : Emitter)
    (out : String) (printed : List String)
    (hok : Emit fuel e = .ok out printed)
    (hother : ∃ lit, TopLevelStmt.other lit ∈ e.program.topLevelStatements) :
    out = "" ∧ ∃ lit, printed = [unrecognizedMsg lit] := by
  unfold Emit at hok
  have hml := emitLoop_other fuel e.optimize e.program.topLevelStatements 0 "" hother
  cases hcase : emitLoop fuel e.optimize e.program.topLevelStatements 0 "" with
  | inl r =>
    rw [hcase] at hok
    cases r with
    | ok o p =>
      obtain ⟨h1, h2⟩ : o = out ∧ p = printed := by
        injection hok with h1 h2
        exact ⟨h1, h2⟩
      subst h1
      subst h2
      exact hml.2 _ _ hcase
    | panicked m => exact absurd hok (by simp)
    | incomplete => exact absurd hok (by simp)
  | inr r => exact absurd hcase (hml.1 r)

/-- C2 witness: the amended theorem applied to a one-statement program
whose only top-level statement is unrecognized. -/
theorem c2_unrecognized_prints_and_returns_empty_witness :
    ("" : String) = "" ∧
      ∃ lit, [unrecognizedMsg "mystery"] = [unrecognizedMsg lit] :=
  c2_unrecognized_prints_and_returns_empty 10
    ⟨⟨[TopLevelStmt.other "mystery"], []⟩, false⟩ "" [unrecognizedMsg "mystery"]
    rfl ⟨"mystery", by simp⟩

end Poryscript
